import Mathlib

/-!
# Status page log aggregation (`src/index.js`)

A shallow embedding of the aggregation core of the status page:
`normalizeData`, `splitRowsByDate`, `summarizeDayStats`, `getDayAverage`,
`getRelativeDays`, `formatMinutes` and `getColor`.

Modelling conventions.

* JavaScript strings are Lean strings; `split` and `trim` are written over the
  character list of the string.
* JavaScript numbers that hold counts, minutes and millisecond instants are
  integers below `2 ^ 53`; on those `+`, `%`, `Math.floor (a / b)` are exact and
  are written with `ℕ` / `ℤ` arithmetic.
* The three places where a non-integer binary64 value arises
  (`sum / count * 100`, `failedChecks / totalChecks * 1440`, the day average)
  go through `Double`, an exact model of round-to-nearest-even binary64
  arithmetic on non-negative finite values.
* A JavaScript object used as a map is an association list in insertion order.
* The `Date` built-ins of the host are a parameter (`Runtime`).
* A thrown exception is the `Except.error` result.
-/

namespace StatusPage

/-! ## Constants -/

/-- Line 1: `const maxDays = 30`. -/
def maxDays : ℕ := 30

/-! ## Strings -/

/-- The pieces of `s.split(sep)` for a one-character separator, on character lists. -/
def splitChars (sep : Char) : List Char → List (List Char)
  | [] => [[]]
  | c :: cs =>
    if c = sep then [] :: splitChars sep cs
    else
      match splitChars sep cs with
      | [] => [[c]]
      | p :: ps => (c :: p) :: ps

/-- The call `s.split(sep)` for a one-character separator: every piece, in order. -/
def jsSplit (sep : Char) (s : String) : List String :=
  (splitChars sep s.data).map String.mk

/-- The call `s.split(sep, limit)`: the first `limit` pieces of the full split. -/
def jsSplitLimit (sep : Char) (limit : ℕ) (s : String) : List String :=
  (jsSplit sep s).take limit

/-- White space and line terminators as removed by `String.prototype.trim`. -/
def isJsWhitespace (c : Char) : Bool :=
  let n := c.toNat
  n = 9 || n = 10 || n = 11 || n = 12 || n = 13 || n = 32 || n = 160 || n = 5760
    || (8192 ≤ n && n ≤ 8202) || n = 8232 || n = 8233 || n = 8239 || n = 8287
    || n = 12288 || n = 65279

/-- The call `s.trim()`. -/
def jsTrim (s : String) : String :=
  String.mk ((s.data.dropWhile isJsWhitespace).reverse.dropWhile isJsWhitespace).reverse

/-- Every dash of `s` replaced by a slash (the global regular-expression `replace` of line 210). -/
def replaceDashes (s : String) : String :=
  String.mk (s.data.map fun c => if c = '-' then '/' else c)

/-! ## Binary64 arithmetic on non-negative values -/

/-- A finite non-negative binary64 value `mant * 2 ^ exp`. -/
structure Double where
  mant : ℕ
  exp : ℤ
deriving DecidableEq, Repr

namespace Double

/-- The rational number a double stands for. -/
def toRat (x : Double) : ℚ := (x.mant : ℚ) * (2 : ℚ) ^ x.exp

/-- Numerator of the value over the denominator `den`. -/
def num (x : Double) : ℕ := x.mant * 2 ^ x.exp.toNat

/-- A power of two with `toRat x = num x / den x`. -/
def den (x : Double) : ℕ := 2 ^ (-x.exp).toNat

/-- Floor of the binary logarithm, by halving. -/
def log2Fuel : ℕ → ℕ → ℕ
  | 0, _ => 0
  | fuel + 1, n => if n < 2 then 0 else log2Fuel fuel (n / 2) + 1

/-- Floor of the binary logarithm of a positive natural number. -/
def ilog2 (n : ℕ) : ℕ := log2Fuel n n

/-- The integer nearest to `n / d`, ties to the even one. -/
def roundHalfEven (n d : ℕ) : ℕ :=
  let f := n / d
  let r := n % d
  if 2 * r < d then f else if d < 2 * r then f + 1 else if f % 2 = 0 then f else f + 1

/-- The exponent `e` with `2 ^ e ≤ p / q < 2 ^ (e + 1)`, for positive `p` and `q`. -/
def binade (p q : ℕ) : ℤ :=
  let e0 : ℤ := (ilog2 p : ℤ) - (ilog2 q : ℤ)
  if q * 2 ^ e0.toNat ≤ p * 2 ^ (-e0).toNat then e0 else e0 - 1

/-- The binary64 value nearest to `p / q` (round to nearest, ties to even; 53 bits of
precision, gradual underflow below `2 ^ (-1022)`). -/
def ofQuot (p q : ℕ) : Double :=
  if p = 0 then ⟨0, 0⟩
  else
    let t : ℤ := max (binade p q) (-1022) - 52
    ⟨roundHalfEven (p * 2 ^ (-t).toNat) (q * 2 ^ t.toNat), t⟩

end Double

/-- The quotient `a / b` of two integer-valued numbers, `b ≠ 0`. -/
def fdiv (a b : ℕ) : Double := Double.ofQuot a b

/-- The product `x * k` for an integer-valued `k`. -/
def fmul (x : Double) (k : ℕ) : Double := Double.ofQuot (x.num * k) x.den

/-- The call `Math.round(x)`: the nearest integer, ties upwards. -/
def mathRound (x : Double) : ℕ := (2 * x.num + x.den) / (2 * x.den)

/-- The call `x.toFixed(2)` for `0 ≤ x < 1e21`: the integer `n` with `n / 100` nearest to `x`
(the larger one on a tie), printed with two decimals. -/
def toFixed2 (x : Double) : String :=
  let n := (200 * x.num + x.den) / (2 * x.den)
  let frac := n % 100
  Nat.repr (n / 100) ++ "." ++ (if frac < 10 then "0" else "") ++ Nat.repr frac

/-! ## `formatMinutes` (lines 266-276) -/

/-- Lines 266-276. `minutes` is a non-negative integer. -/
def formatMinutes (minutes : ℕ) : String :=
  let hrs := minutes / 60
  let mins := minutes % 60
  if hrs = 0 then Nat.repr mins ++ "m"
  else if mins = 0 then Nat.repr hrs ++ "h"
  else Nat.repr hrs ++ "h " ++ Nat.repr mins ++ "m"

/-! ## The host: `Date` built-ins -/

/-- The `Date` built-ins the code calls. An instant is a millisecond count, `none` is the
invalid date (`NaN`). -/
structure Runtime where
  /-- The call `Date.parse(s)`, also the parse done by `new Date(s)`. -/
  parse : String → Option ℤ
  /-- The call `d.toDateString()`: the calendar day of `d` in the local zone. -/
  toDateString : Option ℤ → String
  /-- The call `d.toLocaleTimeString` with two-digit hour and minute. -/
  toLocaleTimeString : Option ℤ → String
  /-- The call `Date.now()`. -/
  now : ℤ

/-! ## Data model -/

/-- The exception a call can end with. -/
inductive JsError where
  | typeError
deriving DecidableEq, Repr

deriving instance DecidableEq for Except

/-- The per-day object of lines 215-219. -/
structure DayContainer where
  results : List ℕ
  firstFailureTime : Option String
  lastFailureTime : Option String
deriving DecidableEq, Repr

/-- The object `byDay`: day key to container, in insertion order. -/
abbrev ByDay := List (String × DayContainer)

/-- Lines 215-219: the container a new day starts with. -/
def emptyDay : DayContainer := ⟨[], none, none⟩

/-- The variables `byDay`, `sum`, `count` of `splitRowsByDate` while the first loop runs. -/
structure LoopState where
  byDay : ByDay
  sum : ℕ
  count : ℕ
deriving DecidableEq, Repr

/-- The value `splitRowsByDate` returns (lines 258-263). -/
structure SplitResult where
  byDay : ByDay
  upTime : String
  incidentCount : ℕ
  totalEstimatedDowntimeMinutes : ℕ
deriving DecidableEq, Repr

/-- The object `summarizeDayStats` returns (lines 176-182). -/
structure DayStats where
  totalChecks : ℕ
  failedChecks : ℕ
  estimatedDowntime : String
  firstFailureTime : Option String
  lastFailureTime : Option String
deriving DecidableEq, Repr

/-- The property key a relative day number becomes: `none` is the key `"NaN"`. -/
abbrev Offset := Option ℕ

/-- The value `normalizeData` returns (lines 160-166). A day average is `none` for `null`. -/
structure Summary where
  dailyAverages : List (Offset × Option Double)
  dailyStats : List (Offset × DayStats)
  upTime : String
  incidentCount : ℕ
  totalEstimatedDowntime : String
deriving DecidableEq, Repr

/-- The assignment `obj[key] = value`: overwrite the entry of `key`, or add it at the end. -/
def assign {α β : Type} [DecidableEq α] (obj : List (α × β)) (key : α) (value : β) :
    List (α × β) :=
  if obj.any (fun kv => kv.1 = key) then obj.map (fun kv => if kv.1 = key then (key, value) else kv)
  else obj ++ [(key, value)]

/-- The read `obj[key]`. -/
def getProp {α β : Type} [DecidableEq α] (obj : List (α × β)) (key : α) : Option β :=
  (obj.find? (fun kv => kv.1 = key)).map Prod.snd

/-- A mutation of the container stored under `key`. -/
def updateDay (byDay : ByDay) (key : String) (f : DayContainer → DayContainer) : ByDay :=
  byDay.map (fun kv => if kv.1 = key then (kv.1, f kv.2) else kv)

/-- The test `!v` on a value that is `null` or a string. -/
def isFalsy : Option String → Bool
  | none => true
  | some s => s = ""

/-! ## `splitRowsByDate` (lines 196-264) -/

/-- Line 209: `const [dateTimeStr, resultStr] = row.split(",", 2)`; the second component is
`none` when the row has no comma (`resultStr` is `undefined`). A split always has a first
piece, so the first arm is never taken. -/
def destructure (row : String) : String × Option String :=
  match jsSplitLimit ',' 2 row with
  | [] => ("", none)
  | [d] => (d, none)
  | d :: r :: _ => (d, some r)

/-- Line 210: `dateTime`. -/
def dateTimeOf (rt : Runtime) (row : String) : Option ℤ :=
  rt.parse (replaceDashes (destructure row).1 ++ " GMT")

/-- Line 211: `dateStr`, the day key of a row. -/
def dayKeyOf (rt : Runtime) (row : String) : String :=
  rt.toDateString (dateTimeOf rt row)

/-- Lines 226-242 on the container of the row: the result is pushed and, for a failure,
the failure times are updated. -/
def recordInDay (timeValue : String) (isSuccess : Bool) (c : DayContainer) : DayContainer :=
  { results := c.results ++ [if isSuccess then 1 else 0]
    firstFailureTime :=
      if isSuccess then c.firstFailureTime
      else if isFalsy c.firstFailureTime then some timeValue else c.firstFailureTime
    lastFailureTime := if isSuccess then c.lastFailureTime else some timeValue }

/-- Lines 226-242: count the row in the day `dayKeyOf rt row`, which is in `byDay`.
`resultStr.trim()` throws when `resultStr` is `undefined`. -/
def recordRow (rt : Runtime) (st : LoopState) (row : String) : Except JsError LoopState :=
  match (destructure row).2 with
  | none => .error .typeError
  | some resultStr =>
    let isSuccess : Bool := jsTrim resultStr = "success"
    let result : ℕ := if isSuccess then 1 else 0
    .ok { byDay := updateDay st.byDay (dayKeyOf rt row)
            (recordInDay (rt.toLocaleTimeString (dateTimeOf rt row)) isSuccess)
          sum := st.sum + result
          count := st.count + 1 }

/-- The first loop (lines 203-243) from the state `st` on the remaining rows. -/
def splitLoop (rt : Runtime) : List String → LoopState → Except JsError LoopState
  | [], st => .ok st
  | row :: rows, st =>
    if row = "" then splitLoop rt rows st
    else
      match getProp st.byDay (dayKeyOf rt row) with
      | some _ =>
        match recordRow rt st row with
        | .ok st1 => splitLoop rt rows st1
        | .error e => .error e
      | none =>
        let st0 : LoopState := { st with byDay := st.byDay ++ [(dayKeyOf rt row, emptyDay)] }
        if st0.byDay.length > maxDays then .ok st0
        else
          match recordRow rt st0 row with
          | .ok st1 => splitLoop rt rows st1
          | .error e => .error e

/-- Line 247: `results.filter((result) => result === 0).length`. -/
def failedChecksOf (results : List ℕ) : ℕ := (results.filter (fun r => r = 0)).length

/-- Lines 173 and 253: `Math.round((failedChecks / totalChecks) * 1440)`. -/
def downtimeMinutes (failedChecks totalChecks : ℕ) : ℕ :=
  mathRound (fmul (fdiv failedChecks totalChecks) 1440)

/-- The second loop (lines 245-255), from the accumulators
`(incidentCount, totalEstimatedDowntimeMinutes)`. -/
def tallyDays : List DayContainer → ℕ × ℕ → ℕ × ℕ
  | [], acc => acc
  | dayValue :: rest, (incidentCount, total) =>
    let totalChecks := dayValue.results.length
    let failedChecks := failedChecksOf dayValue.results
    let incidentCount1 := if failedChecks > 0 then incidentCount + 1 else incidentCount
    let total1 := if totalChecks > 0 then total + downtimeMinutes failedChecks totalChecks else total
    tallyDays rest (incidentCount1, total1)

/-- Line 257: `upTime`. -/
def upTimeOf (sum count : ℕ) : String :=
  if count = 0 then "--%" else toFixed2 (fmul (fdiv sum count) 100) ++ "%"

/-- Lines 245-263: what is returned from the state the first loop ends in. -/
def finishSplit (st : LoopState) : SplitResult :=
  let tally := tallyDays (st.byDay.map Prod.snd) (0, 0)
  { byDay := st.byDay
    upTime := upTimeOf st.sum st.count
    incidentCount := tally.1
    totalEstimatedDowntimeMinutes := tally.2 }

/-- Lines 196-264. -/
def splitRowsByDate (rt : Runtime) (rows : List String) : Except JsError SplitResult :=
  (splitLoop rt rows ⟨[], 0, 0⟩).map finishSplit

/-! ## The summary builder (lines 147-194) -/

/-- Lines 192-194. Both arguments are instants, so the quotient is below `2 ^ 53` and
`Math.floor(Math.abs(d / 86400000))` is the integer quotient of the absolute difference. -/
def getRelativeDays (date1 date2 : ℤ) : ℕ :=
  (date1 - date2).natAbs / (24 * 3600 * 1000)

/-- Lines 185-190. `none` as argument is a missing sequence, `none` as result is `null`;
`reduce` without an initial value starts from the first element. -/
def getDayAverage (val : Option (List ℕ)) : Option Double :=
  match val with
  | none => none
  | some [] => none
  | some (v :: vs) => some (fdiv (vs.foldl (fun a v => a + v) v) (v :: vs).length)

/-- Lines 172-174: `estimatedDowntimeMinutes`. -/
def estimatedDowntimeMinutes (dayValue : DayContainer) : ℕ :=
  let totalChecks := dayValue.results.length
  let failedChecks := failedChecksOf dayValue.results
  if totalChecks = 0 then 0 else downtimeMinutes failedChecks totalChecks

/-- Lines 169-183. -/
def summarizeDayStats (dayValue : DayContainer) : DayStats :=
  { totalChecks := dayValue.results.length
    failedChecks := failedChecksOf dayValue.results
    estimatedDowntime := formatMinutes (estimatedDowntimeMinutes dayValue)
    firstFailureTime := dayValue.firstFailureTime
    lastFailureTime := dayValue.lastFailureTime }

/-- Lines 46-54. `0.3` is the double `5404319552844595 * 2 ^ (-54)`. -/
def getColor (uptimeVal : Option Double) : String :=
  match uptimeVal with
  | none => "nodata"
  | some x =>
    if x.num = x.den then "success"
    else if x.num * 2 ^ 54 < 5404319552844595 * x.den then "failure"
    else "partial"

/-- Line 155: the relative day of a day key; an unparsable key gives `NaN`. -/
def relDaysOf (rt : Runtime) (key : String) : Offset :=
  (rt.parse key).map (getRelativeDays rt.now)

/-- Lines 154-158: the loop over `Object.entries(dateNormalized.byDay)`. -/
def fillMaps (rt : Runtime) :
    ByDay → List (Offset × Option Double) × List (Offset × DayStats) →
      List (Offset × Option Double) × List (Offset × DayStats)
  | [], maps => maps
  | (key, val) :: rest, (dailyAverages, dailyStats) =>
    let relDays := relDaysOf rt key
    fillMaps rt rest
      (assign dailyAverages relDays (getDayAverage (some val.results)),
        assign dailyStats relDays (summarizeDayStats val))

/-- Lines 147-167. -/
def normalizeData (rt : Runtime) (statusLines : String) : Except JsError Summary :=
  match splitRowsByDate rt (jsSplit '\n' statusLines) with
  | .error e => .error e
  | .ok dateNormalized =>
    let maps := fillMaps rt dateNormalized.byDay ([], [])
    .ok { dailyAverages := maps.1
          dailyStats := maps.2
          upTime := dateNormalized.upTime
          incidentCount := dateNormalized.incidentCount
          totalEstimatedDowntime := formatMinutes dateNormalized.totalEstimatedDowntimeMinutes }

/-! ## A concrete host

A host whose local zone is UTC and whose locale prints the time of day as `HH:MM`.
It reads the two date shapes the code hands to the parser: the log timestamp after
line 210 (`YYYY/MM/DD HH:MM:SS GMT`) and a day key (`Www Mmm DD YYYY`); any other
text is an invalid date. It is used to run the code on concrete logs. -/

namespace Host

/-- The value of a decimal digit. -/
def digitVal (c : Char) : Option ℕ :=
  if 48 ≤ c.toNat ∧ c.toNat ≤ 57 then some (c.toNat - 48) else none

/-- The number written by a list of decimal digits. -/
def readNat : List Char → Option ℕ
  | [] => none
  | cs => cs.foldlM (fun acc c => (digitVal c).map (fun d => acc * 10 + d)) 0

/-- Days from 1970-01-01 to the given civil date (proleptic Gregorian calendar). -/
def daysFromCivil (y m d : ℕ) : ℤ :=
  let y1 := if m ≤ 2 then y - 1 else y
  let era := y1 / 400
  let yoe := y1 % 400
  let mp := if m > 2 then m - 3 else m + 9
  let doy := (153 * mp + 2) / 5 + d - 1
  let doe := yoe * 365 + yoe / 4 - yoe / 100 + doy
  ((era * 146097 + doe : ℕ) : ℤ) - 719468

/-- The civil date `(year, month, day)` of a day number counted from 1970-01-01. -/
def civilFromDays (days : ℕ) : ℕ × ℕ × ℕ :=
  let z := days + 719468
  let era := z / 146097
  let doe := z % 146097
  let yoe := (doe - doe / 1460 + doe / 36524 - doe / 146096) / 365
  let doy := doe - (365 * yoe + yoe / 4 - yoe / 100)
  let mp := (5 * doy + 2) / 153
  let d := doy - (153 * mp + 2) / 5 + 1
  let m := if mp < 10 then mp + 3 else mp - 9
  (if m ≤ 2 then yoe + era * 400 + 1 else yoe + era * 400, m, d)

/-- English month abbreviations, January first. -/
def monthNames : List String :=
  ["Jan", "Feb", "Mar", "Apr", "May", "Jun", "Jul", "Aug", "Sep", "Oct", "Nov", "Dec"]

/-- English weekday abbreviations, Sunday first. -/
def weekdayNames : List String := ["Sun", "Mon", "Tue", "Wed", "Thu", "Fri", "Sat"]

/-- A number below 100 on two digits. -/
def pad2 (n : ℕ) : String := (if n < 10 then "0" else "") ++ Nat.repr n

/-- The instant of a civil date and time of day, when the fields are in range. -/
def instantOf (y m d hh mm ss : ℕ) : Option ℤ :=
  if 1970 ≤ y ∧ 1 ≤ m ∧ m ≤ 12 ∧ 1 ≤ d ∧ d ≤ 31 ∧ hh < 24 ∧ mm < 60 ∧ ss < 60 then
    some ((daysFromCivil y m d * 86400 + ((hh * 3600 + mm * 60 + ss : ℕ) : ℤ)) * 1000)
  else none

/-- The parser of the host. -/
def parse (s : String) : Option ℤ :=
  match s.data with
  | [y1, y2, y3, y4, '/', m1, m2, '/', d1, d2, ' ', h1, h2, ':', n1, n2, ':', s1, s2,
      ' ', 'G', 'M', 'T'] =>
    match readNat [y1, y2, y3, y4], readNat [m1, m2], readNat [d1, d2], readNat [h1, h2],
      readNat [n1, n2], readNat [s1, s2] with
    | some y, some m, some d, some hh, some mm, some ss => instantOf y m d hh mm ss
    | _, _, _, _, _, _ => none
  | [_, _, _, ' ', a, b, c, ' ', d1, d2, ' ', y1, y2, y3, y4] =>
    match readNat [y1, y2, y3, y4], readNat [d1, d2] with
    | some y, some d =>
      let m := monthNames.indexOf (String.mk [a, b, c]) + 1
      instantOf y m d 0 0 0
    | _, _ => none
  | _ => none

/-- The day string of the host: the UTC calendar day as `Www Mmm DD YYYY`. -/
def toDateString (t : Option ℤ) : String :=
  match t with
  | none => "Invalid Date"
  | some ms =>
    if ms < 0 then "Invalid Date"
    else
      let days := ms.toNat / 86400000
      let (y, m, d) := civilFromDays days
      weekdayNames.getD ((days + 4) % 7) "" ++ " " ++ monthNames.getD (m - 1) "" ++ " "
        ++ pad2 d ++ " " ++ Nat.repr y

/-- The time of day of the host: `HH:MM` in UTC. -/
def toLocaleTimeString (t : Option ℤ) : String :=
  match t with
  | none => "Invalid Date"
  | some ms =>
    if ms < 0 then "Invalid Date"
    else
      let secs := ms.toNat / 1000 % 86400
      pad2 (secs / 3600) ++ ":" ++ pad2 (secs / 60 % 60)

end Host

/-- The concrete host, with the clock reading `now`. -/
def utcHost (now : ℤ) : Runtime :=
  { parse := Host.parse
    toDateString := Host.toDateString
    toLocaleTimeString := Host.toLocaleTimeString
    now := now }

/-! ## Notions of the specification

Definitions that follow the words of the specification; the theorems compare them with
the code above. -/

/-- The rows that are not blank. -/
def nonBlank (rows : List String) : List String := rows.filter (fun row => row ≠ "")

/-- One more day key seen: it is added after the others unless already there. -/
def addKey (keys : List String) (key : String) : List String :=
  if key ∈ keys then keys else keys ++ [key]

/-- The distinct day keys of the non-blank rows, in the order they are first seen. -/
def distinctDayKeys (rt : Runtime) (rows : List String) : List String :=
  ((nonBlank rows).map (dayKeyOf rt)).foldl addKey []

/-- The first `maxDays` distinct day keys seen. -/
def firstDays (rt : Runtime) (rows : List String) : List String :=
  (distinctDayKeys rt rows).take maxDays

/-- The counted records: the non-blank rows before the first one whose day key is not
among the first `maxDays` distinct day keys. -/
def countedRows (rt : Runtime) (rows : List String) : List String :=
  (nonBlank rows).takeWhile (fun row => dayKeyOf rt row ∈ firstDays rt rows)

/-- A row is a success when its outcome field, trimmed, is `success`. -/
def isSuccessRow (row : String) : Bool :=
  match (destructure row).2 with
  | some resultStr => jsTrim resultStr = "success"
  | none => false

/-- The hundredths nearest to the exact percentage `100 * s / n`, a tie going up. -/
def hundredthsHalfUp (s n : ℕ) : ℕ := (2 * (10000 * s) + n) / (2 * n)

/-- The hundredths nearest to the exact percentage `100 * s / n`, a tie going to the even
one. -/
def hundredthsHalfEven (s n : ℕ) : ℕ := Double.roundHalfEven (10000 * s) n

/-- A number of hundredths printed with two decimals. -/
def renderHundredths (h : ℕ) : String :=
  Nat.repr (h / 100) ++ "." ++ (if h % 100 < 10 then "0" else "") ++ Nat.repr (h % 100)

/-- A sample log: one success record at 10:00 on each of the first `n` days of January
2024. -/
def januaryRows (n : ℕ) : List String :=
  (List.range n).map fun d => "2024-01-" ++ Host.pad2 (d + 1) ++ " 10:00:00,success"

/-! ## Auxiliary definitions for the proofs -/

/-- The day keys of `byDay`, in insertion order. -/
def keysOf (byDay : ByDay) : List String := byDay.map Prod.fst

/-- Lines 213-220 without the cutoff test: the container of the day is created when it is
missing. -/
def ensureDay (st : LoopState) (key : String) : LoopState :=
  match getProp st.byDay key with
  | some _ => st
  | none => { st with byDay := st.byDay ++ [(key, emptyDay)] }

/-- One iteration of the first loop on a row that is not cut off. -/
def countRow (rt : Runtime) (st : LoopState) (row : String) : Except JsError LoopState :=
  recordRow rt (ensureDay st (dayKeyOf rt row)) row

/-- The first loop on rows none of which is blank or cut off. -/
def countRows (rt : Runtime) : List String → LoopState → Except JsError LoopState
  | [], st => .ok st
  | row :: rows, st =>
    match countRow rt st row with
    | .ok st1 => countRows rt rows st1
    | .error e => .error e

/-- The first `maxDays` day keys when `keys` have been seen and `rows` are still to come. -/
def allowedKeys (rt : Runtime) (keys : List String) (rows : List String) : List String :=
  (((nonBlank rows).map (dayKeyOf rt)).foldl addKey keys).take maxDays

/-- The empty container the row that triggers the cutoff leaves in `byDay`. -/
def addCutoffDay (rt : Runtime) (cut : Option String) (st : LoopState) : LoopState :=
  match cut with
  | none => st
  | some row => { st with byDay := st.byDay ++ [(dayKeyOf rt row, emptyDay)] }

/-- The row at which the loop breaks, if any: the first non-blank row whose day key is
not among the first `maxDays` distinct day keys. -/
def cutoffRow (rt : Runtime) (rows : List String) : Option String :=
  ((nonBlank rows).dropWhile (fun row => decide (dayKeyOf rt row ∈ firstDays rt rows))).head?

/-- No container of `byDay` holds a failure. -/
def NoFailure (byDay : ByDay) : Prop := ∀ kv ∈ byDay, 0 ∉ kv.2.results

/-! ## Notions of the specification, continued -/

/-- The whole text after the first comma of a row. -/
def remainderAfterComma (row : String) : String :=
  String.mk (row.data.dropWhile (fun c => c ≠ ',')).tail

/-- The text between the first comma of a row and the next comma, or the end of the row. -/
def outcomeField (row : String) : String :=
  String.mk ((row.data.dropWhile (fun c => c ≠ ',')).tail.takeWhile (fun c => c ≠ ','))

/-- The result pushed for a row: 1 for a success, 0 for a failure. -/
def resultOf (row : String) : ℕ := if isSuccessRow row then 1 else 0

/-- The time of day of a row (lines 230-233). -/
def timeOf (rt : Runtime) (row : String) : String :=
  rt.toLocaleTimeString (dateTimeOf rt row)

/-- The rows of `l` that fall on the day `key`. -/
def rowsOfDay (rt : Runtime) (l : List String) (key : String) : List String :=
  l.filter (fun row => dayKeyOf rt row = key)

/-- The failure records of the day `key` among the counted records, in file order. -/
def failuresOfDay (rt : Runtime) (rows : List String) (key : String) : List String :=
  (rowsOfDay rt (countedRows rt rows) key).filter (fun row => !isSuccessRow row)

/-- A decimal digit character. -/
def isDigitChar (c : Char) : Bool := 48 ≤ c.toNat && c.toNat ≤ 57

/-- The number a list of decimal digits writes. -/
def decimalValue (cs : List Char) : ℕ := cs.foldl (fun a c => a * 10 + (c.toNat - 48)) 0

/-- The minutes a duration text stands for: the inverse reading of `formatMinutes`. -/
def minutesOfText (s : String) : ℕ :=
  let ds := s.data.takeWhile isDigitChar
  match s.data.dropWhile isDigitChar with
  | ['m'] => decimalValue ds
  | 'h' :: rest =>
    decimalValue ds * 60 + decimalValue ((rest.drop 1).takeWhile isDigitChar)
  | _ => 0

/-- The minutes nearest to the exact value `failed / total * 1440`, a tie going up. -/
def exactRoundedMinutes (failed total : ℕ) : ℕ := (2 * (failed * 1440) + total) / (2 * total)

/-! ## Auxiliary definitions for the proofs, continued -/

/-- The container of a day from the rows recorded in it, in file order. -/
def dayFold (rt : Runtime) (l : List String) : DayContainer :=
  l.foldl (fun c row => recordInDay (timeOf rt row) (isSuccessRow row) c) emptyDay

/-- The distinct day keys of the rows `l`, in the order they are first seen. -/
def dkeys (rt : Runtime) (l : List String) : List String :=
  (l.map (dayKeyOf rt)).foldl addKey []

/-- The object `byDay` after the rows `l` have been recorded. -/
def byDayOf (rt : Runtime) (l : List String) : ByDay :=
  (dkeys rt l).map (fun k => (k, dayFold rt (rowsOfDay rt l k)))

/-- The container the cutoff row leaves in `byDay`, as a list of entries. -/
def cutoffEntry (rt : Runtime) (rows : List String) : ByDay :=
  match cutoffRow rt rows with
  | none => []
  | some row => [(dayKeyOf rt row, emptyDay)]

/-! ## Lemmas: binary64 arithmetic -/

theorem roundHalfEven_le (n d c : ℕ) (hd : 0 < d) (h : n ≤ c * d) :
    Double.roundHalfEven n d ≤ c := by
  have hf : n / d ≤ c := Nat.div_le_of_le_mul (by rw [Nat.mul_comm]; exact h)
  have hsucc : d ≤ 2 * (n % d) → n / d + 1 ≤ c := by
    intro hr
    by_contra hc
    have hc2 : c ≤ n / d := by omega
    have h1 : c * d ≤ n / d * d := Nat.mul_le_mul_right d hc2
    have h2 := Nat.div_add_mod n d
    have h3 : n / d * d = d * (n / d) := Nat.mul_comm _ _
    omega
  unfold Double.roundHalfEven
  simp only []
  split_ifs <;> first | exact hf | (apply hsucc; omega)

theorem roundHalfEven_eq_zero (n d : ℕ) (h : 2 * n ≤ d) (hd : 0 < d) :
    Double.roundHalfEven n d = 0 := by
  have hlt : n < d := by omega
  have hf : n / d = 0 := Nat.div_eq_of_lt hlt
  have hr : n % d = n := Nat.mod_eq_of_lt hlt
  unfold Double.roundHalfEven
  simp only [hf, hr]
  split_ifs <;> first | rfl | omega

theorem toRat_nonneg (x : Double) : 0 ≤ x.toRat := by
  unfold Double.toRat
  positivity

theorem ofQuot_toRat_le_one (p q : ℕ) (hq : 0 < q) (h : p ≤ q) :
    (Double.ofQuot p q).toRat ≤ 1 := by
  unfold Double.ofQuot
  split_ifs with hp
  · simp [Double.toRat]
  · simp only []
    generalize max (Double.binade p q) (-1022) - 52 = t
    unfold Double.toRat
    simp only []
    rcases le_or_lt t 0 with ht | ht
    · obtain ⟨k, rfl⟩ : ∃ k : ℕ, t = -(k : ℤ) := ⟨(-t).toNat, by omega⟩
      have h1 : (-(k : ℤ)).toNat = 0 := by omega
      have h2 : (- -(k : ℤ)).toNat = k := by omega
      rw [h1, h2, pow_zero, Nat.mul_one]
      have hm : Double.roundHalfEven (p * 2 ^ k) q ≤ 2 ^ k :=
        roundHalfEven_le _ _ _ hq (by rw [Nat.mul_comm]; exact Nat.mul_le_mul_left _ h)
      rw [zpow_neg, zpow_natCast]
      have hpos : (0 : ℚ) < 2 ^ k := by positivity
      rw [← div_eq_mul_inv, div_le_one hpos]
      exact_mod_cast hm
    · obtain ⟨k, rfl⟩ : ∃ k : ℕ, t = (k : ℤ) := ⟨t.toNat, by omega⟩
      have hk : 1 ≤ k := by omega
      have h1 : ((k : ℤ)).toNat = k := by omega
      have h2 : (-(k : ℤ)).toNat = 0 := by omega
      rw [h1, h2, pow_zero, Nat.mul_one]
      have h2k : 2 ≤ 2 ^ k := by
        calc 2 = 2 ^ 1 := rfl
          _ ≤ 2 ^ k := Nat.pow_le_pow_right (by decide) hk
      have hm : Double.roundHalfEven p (q * 2 ^ k) = 0 := by
        apply roundHalfEven_eq_zero
        · calc 2 * p ≤ 2 * q := by omega
            _ = q * 2 := Nat.mul_comm _ _
            _ ≤ q * 2 ^ k := Nat.mul_le_mul_left _ h2k
        · positivity
      rw [hm]
      simp

theorem fdiv_self (n : ℕ) (h : 0 < n) : fdiv n n = ⟨2 ^ 52, -52⟩ := by
  have hb : Double.binade n n = 0 := by
    unfold Double.binade
    simp
  unfold fdiv Double.ofQuot
  rw [if_neg (by omega), hb]
  have ht : max (0 : ℤ) (-1022) - 52 = -52 := by decide
  simp only [ht]
  have h1 : (-(-52 : ℤ)).toNat = 52 := by decide
  have h2 : ((-52 : ℤ)).toNat = 0 := by decide
  rw [h1, h2]
  congr 1
  unfold Double.roundHalfEven
  have hm : n * 2 ^ 52 % (n * 2 ^ 0) = 0 := by
    rw [pow_zero, Nat.mul_one]
    exact Nat.mul_mod_right n _
  have hd : n * 2 ^ 52 / (n * 2 ^ 0) = 2 ^ 52 := by
    rw [pow_zero, Nat.mul_one]
    exact Nat.mul_div_cancel_left _ h
  simp only [hm, hd]
  have : 2 * 0 < n * 2 ^ 0 := by simpa using h
  rw [if_pos this]

theorem upTimeOf_self (n : ℕ) (h : 0 < n) : upTimeOf n n = "100.00%" := by
  unfold upTimeOf
  rw [if_neg (by omega), fdiv_self n h]
  decide

theorem toFixed2_percent_ne (x : Double) : toFixed2 x ++ "%" ≠ "--%" := by
  intro h
  have hd := congrArg String.data h
  have hmem : '.' ∈ (toFixed2 x ++ "%").data := by
    unfold toFixed2
    simp [String.data_append]
  rw [hd] at hmem
  exact absurd hmem (by decide)

theorem toRat_eq_div (x : Double) : x.toRat = (x.num : ℚ) / (x.den : ℚ) := by
  unfold Double.toRat Double.num Double.den
  rcases le_or_lt 0 x.exp with h | h
  · obtain ⟨k, hk⟩ : ∃ k : ℕ, x.exp = (k : ℤ) := ⟨x.exp.toNat, by omega⟩
    have h1 : x.exp.toNat = k := by omega
    have h2 : (-x.exp).toNat = 0 := by omega
    rw [h1, h2, hk, zpow_natCast]
    push_cast
    simp
  · obtain ⟨k, hk⟩ : ∃ k : ℕ, x.exp = -(k : ℤ) := ⟨(-x.exp).toNat, by omega⟩
    have h1 : x.exp.toNat = 0 := by omega
    have h2 : (-x.exp).toNat = k := by omega
    rw [h1, h2, hk, zpow_neg, zpow_natCast]
    push_cast
    simp [div_eq_mul_inv]

theorem den_pos (x : Double) : 0 < x.den := by
  unfold Double.den
  positivity

/-- The model of `Math.round` is the floor of the value plus one half. -/
theorem mathRound_eq_floor (x : Double) : mathRound x = ⌊x.toRat + 1 / 2⌋₊ := by
  have hd : (0 : ℚ) < (x.den : ℚ) := by exact_mod_cast den_pos x
  have e : x.toRat + 1 / 2 = ((2 * x.num + x.den : ℕ) : ℚ) / ((2 * x.den : ℕ) : ℚ) := by
    rw [toRat_eq_div]
    push_cast
    field_simp
    ring
  rw [e, Nat.floor_div_eq_div]
  rfl

/-! ## Lemmas: the second loop -/

theorem failedChecksOf_eq_count (results : List ℕ) : failedChecksOf results = results.count 0 := by
  unfold failedChecksOf
  induction results with
  | nil => rfl
  | cons r rs ih =>
    by_cases h : r = 0
    · simp [List.filter_cons, h, List.count_cons] at ih ⊢
      exact ih
    · have h2 : ¬ (0 = r) := fun e => h e.symm
      simp [List.filter_cons, h, List.count_cons] at ih ⊢
      exact ih

theorem failedChecksOf_pos_iff (results : List ℕ) : 0 < failedChecksOf results ↔ 0 ∈ results := by
  rw [failedChecksOf_eq_count]
  exact List.count_pos_iff

theorem tallyDays_eq (days : List DayContainer) (acc : ℕ × ℕ) :
    tallyDays days acc =
      (acc.1 + (days.filter (fun d => decide (0 ∈ d.results))).length,
        acc.2 + (days.map estimatedDowntimeMinutes).sum) := by
  induction days generalizing acc with
  | nil => simp [tallyDays]
  | cons d ds ih =>
    obtain ⟨i, t⟩ := acc
    simp only [tallyDays, gt_iff_lt]
    rw [ih]
    have h1 : (if 0 < failedChecksOf d.results then i + 1 else i) =
        i + (if 0 ∈ d.results then 1 else 0) := by
      by_cases h : 0 ∈ d.results
      · simp [h, (failedChecksOf_pos_iff _).2 h]
      · have : ¬ 0 < failedChecksOf d.results := fun hh => h ((failedChecksOf_pos_iff _).1 hh)
        simp [h, this]
    have h2 : (if 0 < d.results.length then
          t + downtimeMinutes (failedChecksOf d.results) d.results.length else t) =
        t + estimatedDowntimeMinutes d := by
      unfold estimatedDowntimeMinutes
      by_cases h : d.results.length = 0
      · simp [h]
      · have : 0 < d.results.length := Nat.pos_of_ne_zero h
        simp [h, this]
    simp only [h1, h2, List.filter_cons, List.map_cons, List.sum_cons]
    by_cases h : 0 ∈ d.results
    · simp [h]; omega
    · simp [h]; omega

theorem estimatedDowntimeMinutes_emptyDay : estimatedDowntimeMinutes emptyDay = 0 := by
  simp [estimatedDowntimeMinutes, emptyDay]

theorem foldl_add_eq_count_one (vs : List ℕ) (a : ℕ) (h : ∀ v ∈ vs, v = 0 ∨ v = 1) :
    vs.foldl (fun a v => a + v) a = a + vs.count 1 := by
  induction vs generalizing a with
  | nil => simp
  | cons v vs ih =>
    have hv := h v (List.mem_cons_self _ _)
    have ht : ∀ w ∈ vs, w = 0 ∨ w = 1 := fun w hw => h w (List.mem_cons_of_mem _ hw)
    rw [List.foldl_cons, ih _ ht]
    rcases hv with rfl | rfl
    · simp [List.count_cons]
    · simp [List.count_cons]; omega

/-! ## Lemmas: day keys -/

theorem getProp_eq_none_iff (byDay : ByDay) (key : String) :
    getProp byDay key = none ↔ key ∉ keysOf byDay := by
  unfold getProp keysOf
  induction byDay with
  | nil => simp
  | cons kv rest ih =>
    by_cases h : kv.1 = key
    · simp [List.find?_cons, h]
    · have h2 : ¬ key = kv.1 := fun e => h e.symm
      simp [List.find?_cons, h, h2] at ih ⊢
      exact ih

theorem keysOf_updateDay (byDay : ByDay) (key : String) (f : DayContainer → DayContainer) :
    keysOf (updateDay byDay key f) = keysOf byDay := by
  unfold keysOf updateDay
  rw [List.map_map]
  apply List.map_congr_left
  intro kv _
  by_cases h : kv.1 = key <;> simp [h]

theorem foldl_addKey_append (l keys : List String) :
    ∃ t, l.foldl addKey keys = keys ++ t := by
  induction l generalizing keys with
  | nil => exact ⟨[], by simp⟩
  | cons k l ih =>
    rw [List.foldl_cons]
    by_cases h : k ∈ keys
    · have e : addKey keys k = keys := by simp [addKey, h]
      rw [e]
      exact ih keys
    · have e : addKey keys k = keys ++ [k] := by simp [addKey, h]
      obtain ⟨t, ht⟩ := ih (keys ++ [k])
      exact ⟨k :: t, by rw [e, ht]; simp⟩

theorem mem_take_foldl_addKey (l keys : List String) (h : keys.length ≤ maxDays) (k : String)
    (hk : k ∈ keys) : k ∈ (l.foldl addKey keys).take maxDays := by
  obtain ⟨t, ht⟩ := foldl_addKey_append l keys
  rw [ht, List.take_append_eq_append_take]
  apply List.mem_append_left
  rw [List.take_of_length_le h]
  exact hk

theorem foldl_addKey_nodup (l keys : List String) (h : keys.Nodup) :
    (l.foldl addKey keys).Nodup := by
  induction l generalizing keys with
  | nil => exact h
  | cons k l ih =>
    rw [List.foldl_cons]
    apply ih
    unfold addKey
    split_ifs with hk
    · exact h
    · rw [List.nodup_append]
      refine ⟨h, List.nodup_singleton k, ?_⟩
      intro a ha hb
      rw [List.mem_singleton] at hb
      subst hb
      exact hk ha

theorem mem_foldl_addKey (l keys : List String) (k : String) :
    k ∈ l.foldl addKey keys ↔ k ∈ keys ∨ k ∈ l := by
  induction l generalizing keys with
  | nil => simp
  | cons a l ih =>
    rw [List.foldl_cons, ih]
    unfold addKey
    split_ifs with ha
    · constructor
      · rintro (h | h)
        · exact Or.inl h
        · exact Or.inr (List.mem_cons_of_mem _ h)
      · rintro (h | h)
        · exact Or.inl h
        · rcases List.mem_cons.1 h with rfl | h
          · exact Or.inl ha
          · exact Or.inr h
    · simp only [List.mem_append, List.mem_singleton, List.mem_cons]
      tauto

theorem length_addKey_le (keys : List String) (k : String)
    (h : k ∈ keys ∨ keys.length < maxDays) (hle : keys.length ≤ maxDays) :
    (addKey keys k).length ≤ maxDays := by
  unfold addKey
  split_ifs with hk
  · exact hle
  · rcases h with h | h
    · exact absurd h hk
    · simp only [List.length_append, List.length_singleton]
      omega

theorem mem_addKey_self (keys : List String) (k : String) : k ∈ addKey keys k := by
  unfold addKey
  split_ifs with hk
  · exact hk
  · simp

theorem firstDays_length_le (rt : Runtime) (rows : List String) :
    (firstDays rt rows).length ≤ maxDays := by
  unfold firstDays
  rw [List.length_take]
  exact Nat.min_le_left _ _

theorem nonBlank_cons_blank (rows : List String) : nonBlank ("" :: rows) = nonBlank rows := by
  simp [nonBlank]

theorem nonBlank_cons_of_ne (row : String) (rows : List String) (h : row ≠ "") :
    nonBlank (row :: rows) = row :: nonBlank rows := by
  simp [nonBlank, h]

theorem allowedKeys_cons_of_ne (rt : Runtime) (keys : List String) (row : String)
    (rows : List String) (h : row ≠ "") :
    allowedKeys rt keys (row :: rows) = allowedKeys rt (addKey keys (dayKeyOf rt row)) rows := by
  unfold allowedKeys
  rw [nonBlank_cons_of_ne row rows h]
  simp

/-! ## Lemmas: the first loop

`splitLoop_eq` describes the loop without its control flow: the counted rows are recorded
one after the other, and the row that triggers the cutoff, if there is one, leaves an
empty container behind. -/

theorem keysOf_countRow (rt : Runtime) (st st1 : LoopState) (row : String)
    (h : countRow rt st row = .ok st1) :
    keysOf st1.byDay = addKey (keysOf st.byDay) (dayKeyOf rt row) := by
  unfold countRow recordRow at h
  split at h
  · exact absurd h (by simp)
  · simp only [Except.ok.injEq] at h
    subst h
    simp only [keysOf_updateDay]
    unfold ensureDay addKey
    cases hg : getProp st.byDay (dayKeyOf rt row) with
    | none =>
      have := (getProp_eq_none_iff _ _).1 hg
      simp only [this, if_false]
      simp [keysOf]
    | some c =>
      have : dayKeyOf rt row ∈ keysOf st.byDay := by
        by_contra hc
        rw [(getProp_eq_none_iff _ _).2 hc] at hg
        exact absurd hg (by simp)
      simp [this]

theorem splitLoop_cons_of_ne (rt : Runtime) (row : String) (rows : List String) (st : LoopState)
    (hne : row ≠ "")
    (h : dayKeyOf rt row ∈ keysOf st.byDay ∨ (keysOf st.byDay).length < maxDays) :
    splitLoop rt (row :: rows) st =
      match countRow rt st row with
      | .ok st1 => splitLoop rt rows st1
      | .error e => .error e := by
  rw [splitLoop]
  simp only [hne, if_false]
  unfold countRow ensureDay
  cases hg : getProp st.byDay (dayKeyOf rt row) with
  | some c => rfl
  | none =>
    have hnot := (getProp_eq_none_iff _ _).1 hg
    have hlen : (keysOf st.byDay).length < maxDays := by
      rcases h with h | h
      · exact absurd h hnot
      · exact h
    have hlen2 : ¬ (st.byDay ++ [(dayKeyOf rt row, emptyDay)]).length > maxDays := by
      simp only [keysOf, List.length_map] at hlen
      simp only [List.length_append, List.length_singleton]
      omega
    simp only [hlen2, if_false]

theorem splitLoop_cons_cutoff (rt : Runtime) (row : String) (rows : List String) (st : LoopState)
    (hne : row ≠ "") (hnew : dayKeyOf rt row ∉ keysOf st.byDay)
    (hfull : maxDays ≤ (keysOf st.byDay).length) :
    splitLoop rt (row :: rows) st =
      .ok { st with byDay := st.byDay ++ [(dayKeyOf rt row, emptyDay)] } := by
  rw [splitLoop]
  simp only [hne, if_false]
  rw [(getProp_eq_none_iff _ _).2 hnew]
  have hlen2 : (st.byDay ++ [(dayKeyOf rt row, emptyDay)]).length > maxDays := by
    simp only [keysOf, List.length_map] at hfull
    simp only [List.length_append, List.length_singleton]
    omega
  simp only [hlen2, if_true]

theorem splitLoop_eq (rt : Runtime) (rows : List String) (st : LoopState)
    (h : (keysOf st.byDay).length ≤ maxDays) :
    splitLoop rt rows st =
      (countRows rt
        ((nonBlank rows).takeWhile
          (fun row => decide (dayKeyOf rt row ∈ allowedKeys rt (keysOf st.byDay) rows))) st).map
        (addCutoffDay rt
          ((nonBlank rows).dropWhile
            (fun row => decide (dayKeyOf rt row ∈ allowedKeys rt (keysOf st.byDay) rows))).head?) := by
  induction rows generalizing st with
  | nil => simp [splitLoop, nonBlank, countRows, Except.map, addCutoffDay]
  | cons row rows ih =>
    by_cases hne : row = ""
    · subst hne
      have e : allowedKeys rt (keysOf st.byDay) ("" :: rows) =
          allowedKeys rt (keysOf st.byDay) rows := by
        unfold allowedKeys
        rw [nonBlank_cons_blank]
      rw [e, nonBlank_cons_blank, ← ih st h]
      rw [splitLoop]
      simp
    · rw [allowedKeys_cons_of_ne rt _ row rows hne, nonBlank_cons_of_ne row rows hne]
      by_cases hc : dayKeyOf rt row ∈ keysOf st.byDay ∨ (keysOf st.byDay).length < maxDays
      · have hlen := length_addKey_le _ _ hc h
        have hmem : dayKeyOf rt row ∈
            allowedKeys rt (addKey (keysOf st.byDay) (dayKeyOf rt row)) rows :=
          mem_take_foldl_addKey _ _ hlen _ (mem_addKey_self _ _)
        rw [splitLoop_cons_of_ne rt row rows st hne hc]
        rw [List.takeWhile_cons, List.dropWhile_cons]
        simp only [hmem, decide_True, if_true]
        rw [countRows]
        cases hr : countRow rt st row with
        | error e => simp [Except.map]
        | ok st1 =>
          have hk := keysOf_countRow rt st st1 row hr
          simp only []
          rw [ih st1 (by rw [hk]; exact hlen), hk]
      · have hnew : dayKeyOf rt row ∉ keysOf st.byDay := fun hh => hc (Or.inl hh)
        have hfull : maxDays ≤ (keysOf st.byDay).length := by
          by_contra hh
          exact hc (Or.inr (by omega))
        have hfull2 : (addKey (keysOf st.byDay) (dayKeyOf rt row)).length ≠ 0 := by
          have := mem_addKey_self (keysOf st.byDay) (dayKeyOf rt row)
          intro h0
          rw [List.length_eq_zero] at h0
          rw [h0] at this
          exact absurd this (List.not_mem_nil _)
        have hA : allowedKeys rt (addKey (keysOf st.byDay) (dayKeyOf rt row)) rows =
            keysOf st.byDay := by
          unfold allowedKeys
          have e : addKey (keysOf st.byDay) (dayKeyOf rt row) =
              keysOf st.byDay ++ [dayKeyOf rt row] := by simp [addKey, hnew]
          rw [e]
          obtain ⟨t, ht⟩ := foldl_addKey_append ((nonBlank rows).map (dayKeyOf rt))
            (keysOf st.byDay ++ [dayKeyOf rt row])
          rw [ht, List.append_assoc, List.take_append_eq_append_take,
            List.take_of_length_le h]
          have : maxDays - (keysOf st.byDay).length = 0 := by omega
          rw [this]
          simp
        rw [hA, splitLoop_cons_cutoff rt row rows st hne hnew hfull]
        rw [List.takeWhile_cons, List.dropWhile_cons]
        simp only [hnew, decide_False, Bool.false_eq_true, if_false]
        simp [countRows, Except.map, addCutoffDay]

theorem splitRowsByDate_ok_iff (rt : Runtime) (rows : List String) (r : SplitResult) :
    splitRowsByDate rt rows = .ok r ↔
      ∃ st, splitLoop rt rows ⟨[], 0, 0⟩ = .ok st ∧ r = finishSplit st := by
  unfold splitRowsByDate
  cases h : splitLoop rt rows ⟨[], 0, 0⟩ with
  | error e => simp [Except.map]
  | ok st => simp [Except.map, eq_comm]

theorem splitRowsByDate_eq (rt : Runtime) (rows : List String) :
    splitRowsByDate rt rows =
      (countRows rt (countedRows rt rows) ⟨[], 0, 0⟩).map
        (fun st => finishSplit (addCutoffDay rt (cutoffRow rt rows) st)) := by
  unfold splitRowsByDate
  rw [splitLoop_eq rt rows ⟨[], 0, 0⟩ (by simp [keysOf])]
  have e : allowedKeys rt (keysOf ([] : ByDay)) rows = firstDays rt rows := rfl
  simp only [e]
  unfold countedRows cutoffRow
  cases countRows rt ((nonBlank rows).takeWhile
    (fun row => decide (dayKeyOf rt row ∈ firstDays rt rows))) ⟨[], 0, 0⟩ <;> rfl

theorem splitRowsByDate_ok_counted (rt : Runtime) (rows : List String) (r : SplitResult)
    (h : splitRowsByDate rt rows = .ok r) :
    ∃ st, countRows rt (countedRows rt rows) ⟨[], 0, 0⟩ = .ok st ∧
      r = finishSplit (addCutoffDay rt (cutoffRow rt rows) st) := by
  rw [splitRowsByDate_eq] at h
  cases hc : countRows rt (countedRows rt rows) ⟨[], 0, 0⟩ with
  | error e => rw [hc] at h; exact absurd h (by simp [Except.map])
  | ok st =>
    rw [hc] at h
    simp only [Except.map, Except.ok.injEq] at h
    exact ⟨st, rfl, h.symm⟩

theorem finishSplit_addCutoffDay (rt : Runtime) (row : String) (st : LoopState) :
    finishSplit (addCutoffDay rt (some row) st) =
      { finishSplit st with
        byDay := (finishSplit st).byDay ++ [(dayKeyOf rt row, emptyDay)] } := by
  simp only [finishSplit, addCutoffDay, tallyDays_eq, List.map_append, List.filter_append,
    List.length_append, List.sum_append, List.map_cons, List.map_nil, List.sum_cons,
    List.sum_nil, estimatedDowntimeMinutes_emptyDay]
  simp [emptyDay]

theorem ensureDay_counts (st : LoopState) (key : String) :
    (ensureDay st key).sum = st.sum ∧ (ensureDay st key).count = st.count := by
  unfold ensureDay
  split <;> exact ⟨rfl, rfl⟩

theorem countRows_counts (rt : Runtime) (l : List String) (st st1 : LoopState)
    (h : countRows rt l st = .ok st1) :
    st1.count = st.count + l.length ∧
      st1.sum = st.sum + (l.filter isSuccessRow).length := by
  induction l generalizing st with
  | nil =>
    simp only [countRows, Except.ok.injEq] at h
    subst h
    simp
  | cons row l ih =>
    rw [countRows] at h
    cases hr : countRow rt st row with
    | error e => rw [hr] at h; exact absurd h (by simp)
    | ok st2 =>
      rw [hr] at h
      obtain ⟨h1, h2⟩ := ih st2 h
      unfold countRow recordRow at hr
      cases hd : (destructure row).2 with
      | none => rw [hd] at hr; exact absurd hr (by simp)
      | some res =>
        rw [hd] at hr
        simp only [Except.ok.injEq] at hr
        have hc : st2.count = st.count + 1 := by
          rw [← hr]; simp only [(ensureDay_counts st _).2]
        have hsum : st2.sum = st.sum + (if jsTrim res = "success" then 1 else 0) := by
          rw [← hr]; simp [(ensureDay_counts st _).1]
        have hs : isSuccessRow row = decide (jsTrim res = "success") := by
          simp [isSuccessRow, hd]
        rw [List.filter_cons, hs]
        constructor
        · rw [h1, hc, List.length_cons]; omega
        · rw [h2, hsum]
          by_cases hres : jsTrim res = "success"
          · simp only [hres, decide_True, if_true, List.length_cons]; omega
          · simp only [hres, decide_False, if_false, Bool.false_eq_true]; omega

theorem addCutoffDay_counts (rt : Runtime) (cut : Option String) (st : LoopState) :
    (addCutoffDay rt cut st).sum = st.sum ∧ (addCutoffDay rt cut st).count = st.count := by
  cases cut <;> exact ⟨rfl, rfl⟩

theorem countRows_wellFormed (rt : Runtime) (l : List String) (st st1 : LoopState)
    (h : countRows rt l st = .ok st1) :
    ∀ row ∈ l, ∃ res, (destructure row).2 = some res := by
  induction l generalizing st with
  | nil => intro row hrow; exact absurd hrow (List.not_mem_nil _)
  | cons a l ih =>
    rw [countRows] at h
    cases hr : countRow rt st a with
    | error e => rw [hr] at h; exact absurd h (by simp)
    | ok st2 =>
      rw [hr] at h
      intro row hrow
      rcases List.mem_cons.1 hrow with rfl | hrow
      · unfold countRow recordRow at hr
        cases hd : (destructure row).2 with
        | none => rw [hd] at hr; exact absurd hr (by simp)
        | some res => exact ⟨res, rfl⟩
      · exact ih st2 h row hrow

theorem countRows_noFailure (rt : Runtime) (l : List String) (st st1 : LoopState)
    (h : countRows rt l st = .ok st1) (hall : ∀ row ∈ l, isSuccessRow row = true)
    (hst : NoFailure st.byDay) : NoFailure st1.byDay := by
  induction l generalizing st with
  | nil =>
    simp only [countRows, Except.ok.injEq] at h
    subst h
    exact hst
  | cons a l ih =>
    rw [countRows] at h
    cases hr : countRow rt st a with
    | error e => rw [hr] at h; exact absurd h (by simp)
    | ok st2 =>
      rw [hr] at h
      apply ih st2 h (fun row hrow => hall row (List.mem_cons_of_mem _ hrow))
      have ha := hall a (List.mem_cons_self _ _)
      unfold countRow recordRow at hr
      unfold isSuccessRow at ha
      cases hd : (destructure a).2 with
      | none => rw [hd] at hr; exact absurd hr (by simp)
      | some res =>
        rw [hd] at hr ha
        simp only [Except.ok.injEq] at hr
        simp only [decide_eq_true_eq] at ha
        subst hr
        have he : NoFailure (ensureDay st (dayKeyOf rt a)).byDay := by
          unfold ensureDay
          split
          · exact hst
          · intro kv hkv
            rcases List.mem_append.1 hkv with hkv | hkv
            · exact hst kv hkv
            · rw [List.mem_singleton] at hkv
              subst hkv
              simp [emptyDay]
        intro kv hkv
        simp only [updateDay, List.mem_map] at hkv
        obtain ⟨kv0, hkv0, rfl⟩ := hkv
        have h0 := he kv0 hkv0
        split_ifs
        · simp [recordInDay, ha, h0]
        · exact h0

/-- When every non-blank row has its day among `keys`, at most `maxDays` of them, no row
is cut off. -/
theorem firstDays_eq_of_subset (rt : Runtime) (rows keys : List String)
    (hlen : keys.length ≤ maxDays)
    (h : ∀ row ∈ nonBlank rows, dayKeyOf rt row ∈ keys) :
    ∀ row ∈ nonBlank rows, dayKeyOf rt row ∈ firstDays rt rows := by
  have hnd : (distinctDayKeys rt rows).Nodup := foldl_addKey_nodup _ _ List.nodup_nil
  have hsub : distinctDayKeys rt rows ⊆ keys := by
    intro k hk
    unfold distinctDayKeys at hk
    rw [mem_foldl_addKey] at hk
    rcases hk with hk | hk
    · exact absurd hk (List.not_mem_nil _)
    · obtain ⟨row, hrow, rfl⟩ := List.mem_map.1 hk
      exact h row hrow
  have hle : (distinctDayKeys rt rows).length ≤ maxDays :=
    le_trans (List.subperm_of_subset hnd hsub).length_le hlen
  intro row hrow
  unfold firstDays
  rw [List.take_of_length_le hle]
  unfold distinctDayKeys
  rw [mem_foldl_addKey]
  exact Or.inr (List.mem_map.2 ⟨row, hrow, rfl⟩)

theorem countedRows_eq_of_all (rt : Runtime) (rows : List String)
    (h : ∀ row ∈ nonBlank rows, dayKeyOf rt row ∈ firstDays rt rows) :
    countedRows rt rows = nonBlank rows ∧ cutoffRow rt rows = none := by
  unfold countedRows cutoffRow
  have hp : ∀ row ∈ nonBlank rows,
      (fun row => decide (dayKeyOf rt row ∈ firstDays rt rows)) row = true := by
    intro row hrow
    simp [h row hrow]
  rw [List.takeWhile_eq_self_iff.2 hp, List.dropWhile_eq_nil_iff.2 hp]
  exact ⟨rfl, rfl⟩

theorem splitChars_all_sep (sep : Char) (cs : List Char) (h : ∀ c ∈ cs, c = sep) :
    ∀ p ∈ splitChars sep cs, p = [] := by
  induction cs with
  | nil => simp [splitChars]
  | cons c cs ih =>
    have hc : c = sep := h c (List.mem_cons_self _ _)
    have ht : ∀ d ∈ cs, d = sep := fun d hd => h d (List.mem_cons_of_mem _ hd)
    rw [splitChars, if_pos hc]
    intro p hp
    rcases List.mem_cons.1 hp with rfl | hp
    · rfl
    · exact ih ht p hp

theorem splitLoop_blank (rt : Runtime) (rows : List String) (st : LoopState)
    (h : ∀ row ∈ rows, row = "") : splitLoop rt rows st = .ok st := by
  induction rows with
  | nil => rfl
  | cons row rows ih =>
    have hr : row = "" := h row (List.mem_cons_self _ _)
    rw [splitLoop, if_pos hr]
    exact ih (fun r hr2 => h r (List.mem_cons_of_mem _ hr2))

/-! ## The claims -/

set_option maxRecDepth 100000 in
/-- C1, evaluated on a log with 31 distinct days (one success record on each day of
January 2024, read at noon on 31 January): `byDay` comes back with 31 containers, one
more than `maxDays`, the last being the empty container of the day that triggered the
cutoff; and `normalizeData` gives that day an entry in both maps, so that offset 0 holds
the average `null` and a statistics record with zero checks. -/
theorem cutoff_day_bucket_kept :
    (splitRowsByDate (utcHost 1706702400000) (januaryRows 31)).map
        (fun r => (r.byDay.length, r.byDay.getLast?)) =
      .ok (31, some ("Wed Jan 31 2024", emptyDay)) ∧
    (normalizeData (utcHost 1706702400000) (String.intercalate "\n" (januaryRows 31))).map
        (fun s => (s.dailyAverages.length, s.dailyStats.length,
          getProp s.dailyAverages (some 0),
          (getProp s.dailyStats (some 0)).map (fun d => d.totalChecks))) =
      .ok (31, 31, some none, some 0) := by
  decide

/-- C2. Hard early exit. Let row `k` be the first non-blank row whose day key is not
among the first `maxDays` distinct day keys. Then `splitRowsByDate rows` ends as
`splitRowsByDate` does on the rows before `k` (it throws when that throws), and what it
returns differs only by the empty container of the day of row `k` added after the
retained ones: `upTime`, `incidentCount`, `totalEstimatedDowntimeMinutes` and every
retained container are the same. The rows after `k` play no part, whatever they are. -/
theorem splitRowsByDate_cutoff (rt : Runtime) (rows : List String) (k : ℕ) (row : String)
    (hrow : rows[k]? = some row) (hne : row ≠ "")
    (hout : dayKeyOf rt row ∉ firstDays rt rows)
    (hfirst : ∀ r ∈ rows.take k, r ≠ "" → dayKeyOf rt r ∈ firstDays rt rows) :
    splitRowsByDate rt rows =
      (splitRowsByDate rt (rows.take k)).map
        (fun p => { p with byDay := p.byDay ++ [(dayKeyOf rt row, emptyDay)] }) := by
  obtain ⟨hk, hget⟩ := List.getElem?_eq_some.1 hrow
  have hsplit : rows = rows.take k ++ row :: rows.drop (k + 1) := by
    rw [← hget, ← List.drop_eq_getElem_cons hk, List.take_append_drop]
  have hnb : nonBlank rows = nonBlank (rows.take k) ++ row :: nonBlank (rows.drop (k + 1)) := by
    conv_lhs => rw [hsplit]
    unfold nonBlank
    rw [List.filter_append, List.filter_cons]
    simp [hne]
  have hpre : ∀ r ∈ nonBlank (rows.take k), dayKeyOf rt r ∈ firstDays rt rows := by
    intro r hr
    unfold nonBlank at hr
    rw [List.mem_filter] at hr
    exact hfirst r hr.1 (by simpa using hr.2)
  have hp : ∀ r ∈ nonBlank (rows.take k),
      (fun row => decide (dayKeyOf rt row ∈ firstDays rt rows)) r = true := by
    intro r hr
    simp [hpre r hr]
  have hcounted : countedRows rt rows = nonBlank (rows.take k) := by
    unfold countedRows
    rw [hnb, List.takeWhile_append_of_pos hp, List.takeWhile_cons_of_neg (by simp [hout])]
    simp
  have hcut : cutoffRow rt rows = some row := by
    unfold cutoffRow
    rw [hnb, List.dropWhile_append_of_pos hp, List.dropWhile_cons_of_neg (by simp [hout])]
    rfl
  obtain ⟨hcounted2, hcut2⟩ := countedRows_eq_of_all rt (rows.take k)
    (firstDays_eq_of_subset rt (rows.take k) (firstDays rt rows)
      (firstDays_length_le rt rows) hpre)
  rw [splitRowsByDate_eq rt rows, splitRowsByDate_eq rt (rows.take k), hcounted, hcut,
    hcounted2, hcut2]
  cases countRows rt (nonBlank (rows.take k)) ⟨[], 0, 0⟩ with
  | error e => rfl
  | ok st =>
    simp only [Except.map]
    rw [finishSplit_addCutoffDay]
    rfl

set_option maxRecDepth 100000 in
/-- Witness for C2: thirty days of January, then a row of a 31st day (without a comma),
then a failure of a retained day and a malformed row. -/
theorem splitRowsByDate_cutoff_witness :
    splitRowsByDate (utcHost 0)
        (januaryRows 30 ++ ["2024-02-01 09:00:00", "2024-01-05 11:00:00,failure", "x"]) =
      (splitRowsByDate (utcHost 0)
        ((januaryRows 30 ++
          ["2024-02-01 09:00:00", "2024-01-05 11:00:00,failure", "x"]).take 30)).map
        (fun p => { p with byDay := p.byDay ++
          [(dayKeyOf (utcHost 0) "2024-02-01 09:00:00", emptyDay)] }) :=
  splitRowsByDate_cutoff (utcHost 0)
    (januaryRows 30 ++ ["2024-02-01 09:00:00", "2024-01-05 11:00:00,failure", "x"]) 30
    "2024-02-01 09:00:00" (by decide) (by decide) (by decide) (by decide)

set_option maxRecDepth 100000 in
/-- C3 as stated fails. On a log of 160 records of one day, 23 of them successes, the
code returns `14.37%`: the binary64 product `(23 / 160) * 100` lies just below 14.375.
The percentage `100 * 23 / 160` is 14.375, which rounds to 14.38 with ties going up and
with ties going to even, and `toFixed(2)` of the binary64 quotient `(100 * 23) / 160`
is `14.38` as well. -/
theorem upTime_not_exactly_rounded :
    (splitRowsByDate (utcHost 1704110400000)
        (List.replicate 23 "2024-01-01 10:00:00,success" ++
          List.replicate 137 "2024-01-01 10:00:00,failure")).map (fun r => r.upTime) =
      .ok "14.37%" ∧
    (countedRows (utcHost 1704110400000)
        (List.replicate 23 "2024-01-01 10:00:00,success" ++
          List.replicate 137 "2024-01-01 10:00:00,failure")).length = 160 ∧
    ((countedRows (utcHost 1704110400000)
        (List.replicate 23 "2024-01-01 10:00:00,success" ++
          List.replicate 137 "2024-01-01 10:00:00,failure")).filter isSuccessRow).length = 23 ∧
    "14.37%" ≠ renderHundredths (hundredthsHalfUp 23 160) ++ "%" ∧
    "14.37%" ≠ renderHundredths (hundredthsHalfEven 23 160) ++ "%" ∧
    "14.37%" ≠ toFixed2 (fdiv (100 * 23) 160) ++ "%" := by
  decide

/-- C3, amended. When `splitRowsByDate` returns, with `n` counted records of which `s`
are successes, `upTime` is `--%` if `n = 0` and otherwise `toFixed(2)` of the binary64
value `(s / n) * 100` followed by `%`; the two counts are taken over all counted records
of the window. `upTime` is `--%` exactly when `n = 0`. -/
theorem upTime_of_counted (rt : Runtime) (rows : List String) (r : SplitResult)
    (h : splitRowsByDate rt rows = .ok r) :
    r.upTime =
        (if (countedRows rt rows).length = 0 then "--%"
         else toFixed2 (fmul (fdiv ((countedRows rt rows).filter isSuccessRow).length
            (countedRows rt rows).length) 100) ++ "%") ∧
      (r.upTime = "--%" ↔ (countedRows rt rows).length = 0) := by
  obtain ⟨st, hst, rfl⟩ := splitRowsByDate_ok_counted rt rows r h
  obtain ⟨hc, hs⟩ := countRows_counts rt _ _ _ hst
  simp only [Nat.zero_add] at hc hs
  have hup : (finishSplit (addCutoffDay rt (cutoffRow rt rows) st)).upTime =
      upTimeOf ((countedRows rt rows).filter isSuccessRow).length (countedRows rt rows).length := by
    simp only [finishSplit, (addCutoffDay_counts rt _ st).1, (addCutoffDay_counts rt _ st).2,
      hc, hs]
  rw [hup]
  unfold upTimeOf
  refine ⟨rfl, ?_⟩
  split_ifs with h0
  · simp [h0]
  · simp only [h0, iff_false]
    exact toFixed2_percent_ne _

/-- Witness for C3: one success and one failure give `50.00%`. -/
theorem upTime_of_counted_witness :
    splitRowsByDate (utcHost 1704110400000)
        ["2024-01-01 10:00:00,success", "2024-01-01 11:00:00,failure"] =
      .ok ⟨[("Mon Jan 01 2024", ⟨[1, 0], some "11:00", some "11:00"⟩)], "50.00%", 1, 720⟩ ∧
    "50.00%" = toFixed2 (fmul (fdiv 1 2) 100) ++ "%" :=
  ⟨by decide,
    ((upTime_of_counted (utcHost 1704110400000)
      ["2024-01-01 10:00:00,success", "2024-01-01 11:00:00,failure"]
      ⟨[("Mon Jan 01 2024", ⟨[1, 0], some "11:00", some "11:00"⟩)], "50.00%", 1, 720⟩
      (by decide)).1.trans (by decide))⟩

/-- C4. The `incidentCount` returned by `splitRowsByDate` is the number of containers of
the returned `byDay` whose results hold a `0`, that is, with `failedChecks > 0`, and it
is at most the number of containers. -/
theorem incidentCount_eq (rt : Runtime) (rows : List String) (r : SplitResult)
    (h : splitRowsByDate rt rows = .ok r) :
    r.incidentCount = (r.byDay.filter (fun kv => decide (0 ∈ kv.2.results))).length ∧
      r.incidentCount = (r.byDay.filter (fun kv => decide (0 < failedChecksOf kv.2.results))).length ∧
      r.incidentCount ≤ r.byDay.length := by
  obtain ⟨st, -, rfl⟩ := (splitRowsByDate_ok_iff rt rows r).1 h
  have h1 : (finishSplit st).incidentCount =
      ((finishSplit st).byDay.filter (fun kv => decide (0 ∈ kv.2.results))).length := by
    simp only [finishSplit, tallyDays_eq, Nat.zero_add]
    rw [List.filter_map, List.length_map]
    rfl
  refine ⟨h1, ?_, ?_⟩
  · rw [h1]
    congr 1
    apply List.filter_congr
    intro kv _
    simp [failedChecksOf_pos_iff]
  · rw [h1]
    exact List.length_filter_le _ _

/-- Witness for C4: two days, one of them with a failure. -/
theorem incidentCount_eq_witness :
    splitRowsByDate (utcHost 1704110400000)
        ["2024-01-01 10:00:00,success", "2024-01-01 11:00:00,failure",
          "2024-01-02 11:00:00,success"] =
      .ok ⟨[("Mon Jan 01 2024", ⟨[1, 0], some "11:00", some "11:00"⟩),
          ("Tue Jan 02 2024", ⟨[1], none, none⟩)], "66.67%", 1, 720⟩ ∧
    (1 : ℕ) = ([("Mon Jan 01 2024", (⟨[1, 0], some "11:00", some "11:00"⟩ : DayContainer)),
          ("Tue Jan 02 2024", ⟨[1], none, none⟩)].filter
            (fun kv => decide (0 ∈ kv.2.results))).length :=
  ⟨by decide,
    (incidentCount_eq (utcHost 1704110400000)
      ["2024-01-01 10:00:00,success", "2024-01-01 11:00:00,failure",
        "2024-01-02 11:00:00,success"]
      ⟨[("Mon Jan 01 2024", ⟨[1, 0], some "11:00", some "11:00"⟩),
        ("Tue Jan 02 2024", ⟨[1], none, none⟩)], "66.67%", 1, 720⟩ (by decide)).1⟩

/-- C5 as stated fails on the empty log: it has no failure record, and `upTime` is
`--%`, not `100.00%`. -/
theorem upTime_empty_log :
    (nonBlank (jsSplit '\n' "")).all isSuccessRow = true ∧
      splitRowsByDate (utcHost 0) (jsSplit '\n' "") = .ok ⟨[], "--%", 0, 0⟩ ∧
      normalizeData (utcHost 0) "" = .ok ⟨[], [], "--%", 0, "0m"⟩ ∧
      "--%" ≠ "100.00%" := by
  decide

/-- C5, amended. When `splitRowsByDate` returns on a log with at least one non-blank
row in which every non-blank row that has an outcome field is a success, `upTime` is
`100.00%` and `incidentCount` is 0. -/
theorem upTime_all_success (rt : Runtime) (rows : List String) (r : SplitResult)
    (h : splitRowsByDate rt rows = .ok r)
    (hall : ∀ row ∈ rows, row ≠ "" → (destructure row).2 ≠ none → isSuccessRow row = true)
    (hsome : ∃ row ∈ rows, row ≠ "") :
    r.upTime = "100.00%" ∧ r.incidentCount = 0 := by
  obtain ⟨st, hst, rfl⟩ := splitRowsByDate_ok_counted rt rows r h
  have hsub : ∀ row ∈ countedRows rt rows, row ∈ rows ∧ row ≠ "" := by
    intro row hrow
    have := List.takeWhile_subset _ hrow
    unfold nonBlank at this
    rw [List.mem_filter] at this
    exact ⟨this.1, by simpa using this.2⟩
  have hsucc : ∀ row ∈ countedRows rt rows, isSuccessRow row = true := by
    intro row hrow
    obtain ⟨res, hres⟩ := countRows_wellFormed rt _ _ _ hst row hrow
    exact hall row (hsub row hrow).1 (hsub row hrow).2 (by rw [hres]; simp)
  obtain ⟨hc, hs⟩ := countRows_counts rt _ _ _ hst
  simp only [Nat.zero_add] at hc hs
  have hfilter : (countedRows rt rows).filter isSuccessRow = countedRows rt rows :=
    List.filter_eq_self.2 hsucc
  rw [hfilter] at hs
  have hpos : 0 < (countedRows rt rows).length := by
    obtain ⟨row, hrow, hne⟩ := hsome
    have hmem : row ∈ nonBlank rows := by
      unfold nonBlank
      rw [List.mem_filter]
      exact ⟨hrow, by simpa using hne⟩
    cases hnb : nonBlank rows with
    | nil => rw [hnb] at hmem; exact absurd hmem (List.not_mem_nil _)
    | cons r0 rest =>
      have hk : dayKeyOf rt r0 ∈ firstDays rt rows := by
        unfold firstDays distinctDayKeys
        rw [hnb, List.map_cons, List.foldl_cons]
        apply mem_take_foldl_addKey
        · simp [addKey, maxDays]
        · simp [addKey]
      unfold countedRows
      rw [hnb, List.takeWhile_cons]
      simp [hk]
  constructor
  · simp only [finishSplit, (addCutoffDay_counts rt _ st).1, (addCutoffDay_counts rt _ st).2,
      hc, hs]
    exact upTimeOf_self _ hpos
  · have hnf : NoFailure st.byDay :=
      countRows_noFailure rt _ _ _ hst hsucc (by intro kv hkv; exact absurd hkv (List.not_mem_nil _))
    have hnf2 : NoFailure (addCutoffDay rt (cutoffRow rt rows) st).byDay := by
      unfold addCutoffDay
      split
      · exact hnf
      · intro kv hkv
        rcases List.mem_append.1 hkv with hkv | hkv
        · exact hnf kv hkv
        · rw [List.mem_singleton] at hkv
          subst hkv
          simp [emptyDay]
    simp only [finishSplit, tallyDays_eq, Nat.zero_add]
    rw [List.length_eq_zero, List.filter_eq_nil_iff]
    intro d hd
    obtain ⟨kv, hkv, rfl⟩ := List.mem_map.1 hd
    simpa using hnf2 kv hkv

/-- Witness for C5: two success records on two days, with a blank row between. -/
theorem upTime_all_success_witness :
    splitRowsByDate (utcHost 0)
        ["2024-01-01 10:00:00,success", "", "2024-01-02 10:00:00, success "] =
      .ok ⟨[("Mon Jan 01 2024", ⟨[1], none, none⟩), ("Tue Jan 02 2024", ⟨[1], none, none⟩)],
        "100.00%", 0, 0⟩ ∧
    ((⟨[("Mon Jan 01 2024", ⟨[1], none, none⟩), ("Tue Jan 02 2024", ⟨[1], none, none⟩)],
        "100.00%", 0, 0⟩ : SplitResult).upTime = "100.00%" ∧
      (⟨[("Mon Jan 01 2024", ⟨[1], none, none⟩), ("Tue Jan 02 2024", ⟨[1], none, none⟩)],
        "100.00%", 0, 0⟩ : SplitResult).incidentCount = 0) :=
  ⟨by decide,
    upTime_all_success (utcHost 0)
      ["2024-01-01 10:00:00,success", "", "2024-01-02 10:00:00, success "] _
      (by decide) (by decide) (by decide)⟩

/-- C6. On a log with zero records (the empty text, or only empty lines)
`normalizeData` returns normally: `upTime` is `--%`, `incidentCount` is 0,
`totalEstimatedDowntime` is `0m`, both maps are empty, and `splitRowsByDate` returns no
day container. -/
theorem normalizeData_empty_log (rt : Runtime) (statusLines : String)
    (h : ∀ c ∈ statusLines.data, c = '\n') :
    normalizeData rt statusLines = .ok ⟨[], [], "--%", 0, "0m"⟩ ∧
      splitRowsByDate rt (jsSplit '\n' statusLines) = .ok ⟨[], "--%", 0, 0⟩ := by
  have hrows : ∀ row ∈ jsSplit '\n' statusLines, row = "" := by
    intro row hrow
    unfold jsSplit at hrow
    obtain ⟨p, hp, rfl⟩ := List.mem_map.1 hrow
    exact (congrArg String.mk (splitChars_all_sep _ _ h p hp)).trans rfl
  have hsplit : splitRowsByDate rt (jsSplit '\n' statusLines) = .ok ⟨[], "--%", 0, 0⟩ := by
    unfold splitRowsByDate
    exact (congrArg (Except.map finishSplit) (splitLoop_blank rt _ _ hrows)).trans rfl
  refine ⟨?_, hsplit⟩
  unfold normalizeData
  simp only [hsplit]
  rfl

/-- Witness for C6: two line breaks, and the empty text. -/
theorem normalizeData_empty_log_witness :
    normalizeData (utcHost 0) "\n\n" = .ok ⟨[], [], "--%", 0, "0m"⟩ ∧
      normalizeData (utcHost 0) "" = .ok ⟨[], [], "--%", 0, "0m"⟩ :=
  ⟨(normalizeData_empty_log (utcHost 0) "\n\n" (by decide)).1,
    (normalizeData_empty_log (utcHost 0) "" (by decide)).1⟩

/-- C7. The average `getDayAverage` returns is `null` for a missing or empty sequence.
For a non-empty sequence of results in `{0, 1}` it is the quotient (number of ones) /
(length), as the binary64 division computes it, a value in `[0, 1]`; on `[1, 1, 0, 1]`
it is 0.75. -/
theorem getDayAverage_mean (val : List ℕ) (hne : val ≠ []) (h01 : ∀ v ∈ val, v = 0 ∨ v = 1) :
    getDayAverage none = none ∧ getDayAverage (some []) = none ∧
      getDayAverage (some val) = some (fdiv (val.count 1) val.length) ∧
      0 ≤ (fdiv (val.count 1) val.length).toRat ∧ (fdiv (val.count 1) val.length).toRat ≤ 1 ∧
      (getDayAverage (some [1, 1, 0, 1])).map Double.toRat = some (3 / 4) := by
  refine ⟨rfl, rfl, ?_, toRat_nonneg _, ?_, ?_⟩
  · cases val with
    | nil => exact absurd rfl hne
    | cons v vs =>
      have hv := h01 v (List.mem_cons_self _ _)
      have ht : ∀ w ∈ vs, w = 0 ∨ w = 1 := fun w hw => h01 w (List.mem_cons_of_mem _ hw)
      simp only [getDayAverage]
      rw [foldl_add_eq_count_one vs v ht]
      rcases hv with rfl | rfl <;> simp [List.count_cons, Nat.add_comm]
  · apply ofQuot_toRat_le_one
    · exact List.length_pos.mpr hne
    · exact List.count_le_length 1 val
  · have h : getDayAverage (some [1, 1, 0, 1]) = some ⟨6755399441055744, -53⟩ := by decide
    rw [h]
    norm_num [Double.toRat]

/-- Witness for C7: the sequence `[1, 0, 1]`. -/
theorem getDayAverage_mean_witness :
    ([1, 0, 1] : List ℕ) ≠ [] ∧ (∀ v ∈ ([1, 0, 1] : List ℕ), v = 0 ∨ v = 1) ∧
      getDayAverage (some [1, 0, 1]) = some (fdiv 2 3) ∧ (fdiv 2 3).toRat ≤ 1 :=
  ⟨by decide, by decide, (getDayAverage_mean [1, 0, 1] (by decide) (by decide)).2.2.1,
    (getDayAverage_mean [1, 0, 1] (by decide) (by decide)).2.2.2.2.1⟩

set_option maxRecDepth 100000 in
/-- C8 as stated fails. For a day of 320 checks of which 7 failed, the exact value
`7 / 320 * 1440` is 31.5, which rounds to 32 (ties up, as `Math.round` does, or ties to
even), while `summarizeDayStats` returns the text `31m`: the binary64 product
`(7 / 320) * 1440` lies just below 31.5. -/
theorem estimatedDowntime_not_exactly_rounded :
    (summarizeDayStats
        ⟨List.replicate 7 0 ++ List.replicate 313 1, some "10:00", some "10:00"⟩).estimatedDowntime =
      "31m" ∧
    (summarizeDayStats
        ⟨List.replicate 7 0 ++ List.replicate 313 1, some "10:00", some "10:00"⟩).failedChecks = 7 ∧
    (summarizeDayStats
        ⟨List.replicate 7 0 ++ List.replicate 313 1, some "10:00", some "10:00"⟩).totalChecks = 320 ∧
    2 * (7 * 1440) = (2 * 31 + 1) * 320 ∧
    "31m" ≠ formatMinutes (exactRoundedMinutes 7 320) ∧
    "31m" ≠ formatMinutes (Double.roundHalfEven (7 * 1440) 320) := by
  decide

set_option maxRecDepth 100000 in
/-- C8, amended. For every day container `summarizeDayStats` returns `totalChecks` = the
length of the results, `failedChecks` = the number of `0` entries, `estimatedDowntime` =
`formatMinutes` of the binary64 product `(failedChecks / totalChecks) * 1440` rounded to
the nearest integer, a tie going up (the floor of the product plus one half), with
`formatMinutes 0` when there is no check, and both failure times unchanged. The results
`[1, 0]` give 2 checks, 1 failed and `12h`; 1 failure of 7 gives `3h 26m` (205.71), 2 of 7
give `6h 51m` (411.43), 1 of 64 gives `23m` (22.5), 1 of 192 gives `8m` (7.5), 7 of 192
give `53m` (52.5) and 7 of 320 give `31m`. -/
theorem summarizeDayStats_fields (dayValue : DayContainer) :
    (summarizeDayStats dayValue).totalChecks = dayValue.results.length ∧
      (summarizeDayStats dayValue).failedChecks = dayValue.results.count 0 ∧
      (summarizeDayStats dayValue).estimatedDowntime =
        formatMinutes
          (if dayValue.results.length = 0 then 0
           else ⌊(fmul (fdiv (dayValue.results.count 0) dayValue.results.length) 1440).toRat
              + 1 / 2⌋₊) ∧
      (summarizeDayStats dayValue).firstFailureTime = dayValue.firstFailureTime ∧
      (summarizeDayStats dayValue).lastFailureTime = dayValue.lastFailureTime ∧
      summarizeDayStats ⟨[1, 0], none, some "11:00"⟩ = ⟨2, 1, "12h", none, some "11:00"⟩ ∧
      (summarizeDayStats ⟨[0, 1, 1, 1, 1, 1, 1], none, none⟩).estimatedDowntime = "3h 26m" ∧
      (summarizeDayStats ⟨[0, 0, 1, 1, 1, 1, 1], none, none⟩).estimatedDowntime = "6h 51m" ∧
      (summarizeDayStats ⟨0 :: List.replicate 63 1, none, none⟩).estimatedDowntime = "23m" ∧
      (summarizeDayStats ⟨0 :: List.replicate 191 1, none, none⟩).estimatedDowntime = "8m" ∧
      (summarizeDayStats
        ⟨List.replicate 7 0 ++ List.replicate 185 1, none, none⟩).estimatedDowntime = "53m" ∧
      (summarizeDayStats
        ⟨List.replicate 7 0 ++ List.replicate 313 1, none, none⟩).estimatedDowntime = "31m" := by
  refine ⟨rfl, failedChecksOf_eq_count _, ?_, rfl, rfl, by decide, by decide, by decide,
    by decide, by decide, by decide, by decide⟩
  simp only [summarizeDayStats, estimatedDowntimeMinutes, downtimeMinutes,
    failedChecksOf_eq_count, mathRound_eq_floor]

set_option maxRecDepth 1000000 in
/-- C9 as stated fails. A log of 320 records of one day, 7 of them failures, has the
exact downtime `7 / 320 * 1440` = 31.5 minutes, which rounds to 32, while
`splitRowsByDate` returns `totalEstimatedDowntimeMinutes` = 31, shown as `31m`. -/
theorem totalEstimatedDowntime_not_exactly_rounded :
    splitRowsByDate (utcHost 0)
        (List.replicate 7 "2024-01-01 10:00:00,failure" ++
          List.replicate 313 "2024-01-01 10:00:00,success") =
      .ok ⟨[("Mon Jan 01 2024",
            ⟨List.replicate 7 0 ++ List.replicate 313 1, some "10:00", some "10:00"⟩)],
          "97.81%", 1, 31⟩ ∧
    2 * (7 * 1440) = (2 * 31 + 1) * 320 ∧
    31 ≠ exactRoundedMinutes 7 320 ∧
    31 ≠ Double.roundHalfEven (7 * 1440) 320 ∧
    formatMinutes 31 ≠ formatMinutes (exactRoundedMinutes 7 320) := by
  decide

/-- C9, amended. The `totalEstimatedDowntimeMinutes` returned by `splitRowsByDate` is the
sum, over the containers of `byDay` with at least one result, of the binary64 product
`(failedChecks / totalChecks) * 1440` rounded to the nearest integer, a tie going up (the
floor of the product plus one half); it is also the sum of the minute values that
`summarizeDayStats` formats for the containers of `byDay`; and the
`totalEstimatedDowntime` of `normalizeData` is `formatMinutes` of it. -/
theorem totalEstimatedDowntime_sum (rt : Runtime) (statusLines : String) (r : SplitResult)
    (h : splitRowsByDate rt (jsSplit '\n' statusLines) = .ok r) :
    r.totalEstimatedDowntimeMinutes =
        ((r.byDay.filter (fun kv => decide (0 < kv.2.results.length))).map
          (fun kv =>
            ⌊(fmul (fdiv (kv.2.results.count 0) kv.2.results.length) 1440).toRat
              + 1 / 2⌋₊)).sum ∧
      r.totalEstimatedDowntimeMinutes =
        (r.byDay.map (fun kv => estimatedDowntimeMinutes kv.2)).sum ∧
      (∀ kv ∈ r.byDay, (summarizeDayStats kv.2).estimatedDowntime =
        formatMinutes (estimatedDowntimeMinutes kv.2)) ∧
      (normalizeData rt statusLines).map (fun s => s.totalEstimatedDowntime) =
        .ok (formatMinutes r.totalEstimatedDowntimeMinutes) := by
  obtain ⟨st, -, rfl⟩ := (splitRowsByDate_ok_iff rt _ r).1 h
  have h2 : (finishSplit st).totalEstimatedDowntimeMinutes =
      ((finishSplit st).byDay.map (fun kv => estimatedDowntimeMinutes kv.2)).sum := by
    simp only [finishSplit, tallyDays_eq, Nat.zero_add, List.map_map]
    rfl
  refine ⟨?_, h2, fun kv _ => rfl, ?_⟩
  · rw [h2]
    generalize (finishSplit st).byDay = byDay
    induction byDay with
    | nil => rfl
    | cons kv rest ih =>
      rw [List.map_cons, List.sum_cons, ih, List.filter_cons]
      by_cases hl : 0 < kv.2.results.length
      · have hne : kv.2.results.length ≠ 0 := by omega
        simp [hl, estimatedDowntimeMinutes, downtimeMinutes, failedChecksOf_eq_count, hne,
          mathRound_eq_floor]
      · have hz : kv.2.results.length = 0 := by omega
        simp [estimatedDowntimeMinutes, hz]
  · unfold normalizeData
    rw [h]
    rfl

/-- Witness for C9: one failure among seven records of one day gives 206 minutes, the
product being 205.71. -/
theorem totalEstimatedDowntime_sum_witness :
    splitRowsByDate (utcHost 0)
        (jsSplit '\n' ("2024-01-01 10:00:00,failure\n2024-01-01 10:01:00,success\n" ++
          "2024-01-01 10:02:00,success\n2024-01-01 10:03:00,success\n" ++
          "2024-01-01 10:04:00,success\n2024-01-01 10:05:00,success\n" ++
          "2024-01-01 10:06:00,success")) =
      .ok ⟨[("Mon Jan 01 2024", ⟨[0, 1, 1, 1, 1, 1, 1], some "10:00", some "10:00"⟩)],
        "85.71%", 1, 206⟩ ∧
    (normalizeData (utcHost 0)
        ("2024-01-01 10:00:00,failure\n2024-01-01 10:01:00,success\n" ++
          "2024-01-01 10:02:00,success\n2024-01-01 10:03:00,success\n" ++
          "2024-01-01 10:04:00,success\n2024-01-01 10:05:00,success\n" ++
          "2024-01-01 10:06:00,success")).map
        (fun s => s.totalEstimatedDowntime) = .ok "3h 26m" :=
  ⟨by decide,
    ((totalEstimatedDowntime_sum (utcHost 0)
      ("2024-01-01 10:00:00,failure\n2024-01-01 10:01:00,success\n" ++
        "2024-01-01 10:02:00,success\n2024-01-01 10:03:00,success\n" ++
        "2024-01-01 10:04:00,success\n2024-01-01 10:05:00,success\n" ++
        "2024-01-01 10:06:00,success")
      ⟨[("Mon Jan 01 2024", ⟨[0, 1, 1, 1, 1, 1, 1], some "10:00", some "10:00"⟩)],
        "85.71%", 1, 206⟩
      (by decide)).2.2.2).trans (by decide)⟩

/-- C10. With `hrs = m / 60` and `mins = m % 60`, `formatMinutes m` is the numeral of
`mins` followed by the letter m when `hrs = 0`; the numeral of `hrs` followed by the
letter h when `hrs > 0` and `mins = 0`; and otherwise the numeral of `hrs`, the letter h,
a blank, the numeral of `mins` and the letter m. So 0, 60, 90 and 45 give `0m`, `1h`,
`1h 30m` and `45m`, and the text is never empty. -/
theorem formatMinutes_cases (m : ℕ) :
    formatMinutes m =
        (if m / 60 = 0 then Nat.repr (m % 60) ++ "m"
         else if m % 60 = 0 then Nat.repr (m / 60) ++ "h"
         else Nat.repr (m / 60) ++ "h " ++ Nat.repr (m % 60) ++ "m") ∧
      formatMinutes 0 = "0m" ∧ formatMinutes 60 = "1h" ∧ formatMinutes 90 = "1h 30m" ∧
      formatMinutes 45 = "45m" ∧ formatMinutes m ≠ "" := by
  refine ⟨rfl, by decide, by decide, by decide, by decide, ?_⟩
  intro h
  have hlen := congrArg String.length h
  unfold formatMinutes at hlen
  simp only [] at hlen
  split_ifs at hlen <;> simp [String.length_append] at hlen <;>
    exact absurd hlen.2 (by decide)

/-! ## Lemmas: splitting a row -/

theorem splitChars_of_not_mem (sep : Char) (cs : List Char) (h : sep ∉ cs) :
    splitChars sep cs = [cs] := by
  induction cs with
  | nil => rfl
  | cons c cs ih =>
    have hc : c ≠ sep := fun e => h (e ▸ List.mem_cons_self _ _)
    have ht : sep ∉ cs := fun e => h (List.mem_cons_of_mem _ e)
    rw [splitChars, if_neg hc, ih ht]

theorem splitChars_head (sep : Char) (cs : List Char) :
    ∃ tl, splitChars sep cs = cs.takeWhile (fun c => c ≠ sep) :: tl := by
  induction cs with
  | nil => exact ⟨[], rfl⟩
  | cons c cs ih =>
    by_cases hc : c = sep
    · exact ⟨splitChars sep cs, by rw [splitChars, if_pos hc]; simp [hc]⟩
    · obtain ⟨tl, htl⟩ := ih
      exact ⟨tl, by rw [splitChars, if_neg hc, htl]; simp [hc]⟩

theorem splitChars_of_mem (sep : Char) (cs : List Char) (h : sep ∈ cs) :
    splitChars sep cs =
      cs.takeWhile (fun c => c ≠ sep) ::
        splitChars sep (cs.dropWhile (fun c => c ≠ sep)).tail := by
  induction cs with
  | nil => exact absurd h (List.not_mem_nil _)
  | cons c cs ih =>
    by_cases hc : c = sep
    · rw [splitChars, if_pos hc]; simp [hc]
    · have ht : sep ∈ cs := by
        rcases List.mem_cons.1 h with e | e
        · exact absurd e.symm hc
        · exact e
      rw [splitChars, if_neg hc, ih ht]
      simp [hc]

theorem destructure_of_no_comma (row : String) (h : ',' ∉ row.data) :
    destructure row = (row, none) := by
  unfold destructure jsSplitLimit jsSplit
  rw [splitChars_of_not_mem _ _ h]
  rfl

theorem destructure_of_comma (row : String) (h : ',' ∈ row.data) :
    destructure row =
      (String.mk (row.data.takeWhile (fun c => c ≠ ',')), some (outcomeField row)) := by
  unfold destructure jsSplitLimit jsSplit outcomeField
  rw [splitChars_of_mem _ _ h]
  obtain ⟨tl, htl⟩ := splitChars_head ',' (row.data.dropWhile (fun c => c ≠ ',')).tail
  rw [htl]
  rfl

/-! ## Lemmas: the containers of `byDay`

`splitRowsByDate_byDay` gives the returned `byDay` in closed form: one container for each
distinct day of the counted rows, folded from the rows of that day, followed by the empty
container of the cutoff row when there is one. -/

theorem keysOf_byDayOf (rt : Runtime) (l : List String) : keysOf (byDayOf rt l) = dkeys rt l := by
  unfold keysOf byDayOf
  rw [List.map_map]
  exact List.map_id' _

theorem dkeys_append_singleton (rt : Runtime) (p : List String) (row : String) :
    dkeys rt (p ++ [row]) = addKey (dkeys rt p) (dayKeyOf rt row) := by
  unfold dkeys
  rw [List.map_append, List.foldl_append]
  rfl

theorem rowsOfDay_append_singleton (rt : Runtime) (p : List String) (row : String)
    (k : String) :
    rowsOfDay rt (p ++ [row]) k =
      rowsOfDay rt p k ++ (if dayKeyOf rt row = k then [row] else []) := by
  unfold rowsOfDay
  rw [List.filter_append]
  by_cases h : dayKeyOf rt row = k <;> simp [List.filter_cons, h]

theorem dayFold_append_singleton (rt : Runtime) (l : List String) (row : String) :
    dayFold rt (l ++ [row]) =
      recordInDay (timeOf rt row) (isSuccessRow row) (dayFold rt l) := by
  unfold dayFold
  rw [List.foldl_append]
  rfl

theorem mem_dkeys (rt : Runtime) (l : List String) (k : String) :
    k ∈ dkeys rt l ↔ ∃ row ∈ l, dayKeyOf rt row = k := by
  unfold dkeys
  rw [mem_foldl_addKey]
  simp

theorem dkeys_nodup (rt : Runtime) (l : List String) : (dkeys rt l).Nodup :=
  foldl_addKey_nodup _ _ List.nodup_nil

theorem countRow_byDay (rt : Runtime) (st st1 : LoopState) (p : List String) (row : String)
    (h : countRow rt st row = .ok st1) (hst : st.byDay = byDayOf rt p) :
    st1.byDay = byDayOf rt (p ++ [row]) := by
  unfold countRow recordRow at h
  cases hd : (destructure row).2 with
  | none => rw [hd] at h; exact absurd h (by simp)
  | some res =>
    rw [hd] at h
    simp only [Except.ok.injEq] at h
    have hs : decide (jsTrim res = "success") = isSuccessRow row := by
      simp [isSuccessRow, hd]
    rw [hs] at h
    rw [← h]
    simp only []
    change updateDay (ensureDay st (dayKeyOf rt row)).byDay (dayKeyOf rt row)
      (recordInDay (timeOf rt row) (isSuccessRow row)) = _
    unfold byDayOf
    rw [dkeys_append_singleton]
    by_cases hk : dayKeyOf rt row ∈ dkeys rt p
    · have hne : getProp st.byDay (dayKeyOf rt row) ≠ none := by
        rw [Ne, getProp_eq_none_iff, hst, keysOf_byDayOf]
        exact fun hh => hh hk
      have he : ensureDay st (dayKeyOf rt row) = st := by
        unfold ensureDay
        cases hg : getProp st.byDay (dayKeyOf rt row) with
        | none => exact absurd hg hne
        | some c => rfl
      have ha : addKey (dkeys rt p) (dayKeyOf rt row) = dkeys rt p := by simp [addKey, hk]
      rw [he, ha, hst]
      unfold updateDay byDayOf
      rw [List.map_map]
      apply List.map_congr_left
      intro k _
      simp only [Function.comp]
      rw [rowsOfDay_append_singleton]
      by_cases hkk : k = dayKeyOf rt row
      · subst hkk
        simp [dayFold_append_singleton]
      · have hkk2 : ¬ dayKeyOf rt row = k := fun e => hkk e.symm
        simp [hkk, hkk2]
    · have hnone : getProp st.byDay (dayKeyOf rt row) = none := by
        rw [getProp_eq_none_iff, hst, keysOf_byDayOf]
        exact hk
      have he : (ensureDay st (dayKeyOf rt row)).byDay =
          st.byDay ++ [(dayKeyOf rt row, emptyDay)] := by
        unfold ensureDay
        rw [hnone]
      have ha : addKey (dkeys rt p) (dayKeyOf rt row) = dkeys rt p ++ [dayKeyOf rt row] := by
        simp [addKey, hk]
      have hempty : rowsOfDay rt p (dayKeyOf rt row) = [] := by
        unfold rowsOfDay
        rw [List.filter_eq_nil_iff]
        intro r hr
        have : dayKeyOf rt r ≠ dayKeyOf rt row := by
          intro e
          exact hk ((mem_dkeys rt p _).2 ⟨r, hr, e⟩)
        simpa using this
      rw [he, ha, hst]
      unfold updateDay byDayOf
      rw [List.map_append, List.map_append, List.map_map]
      congr 1
      · apply List.map_congr_left
        intro k hkm
        have hkk : k ≠ dayKeyOf rt row := fun e => hk (e ▸ hkm)
        have hkk2 : ¬ dayKeyOf rt row = k := fun e => hkk e.symm
        simp only [Function.comp]
        rw [rowsOfDay_append_singleton]
        simp [hkk, hkk2]
      · simp only [List.map_cons, List.map_nil, if_true]
        rw [rowsOfDay_append_singleton, hempty]
        simp [dayFold, emptyDay]

theorem countRows_byDay (rt : Runtime) (l : List String) (st st1 : LoopState)
    (p : List String) (h : countRows rt l st = .ok st1) (hst : st.byDay = byDayOf rt p) :
    st1.byDay = byDayOf rt (p ++ l) := by
  induction l generalizing st p with
  | nil =>
    simp only [countRows, Except.ok.injEq] at h
    subst h
    simpa using hst
  | cons row l ih =>
    rw [countRows] at h
    cases hr : countRow rt st row with
    | error e => rw [hr] at h; exact absurd h (by simp)
    | ok st2 =>
      rw [hr] at h
      have := ih st2 (p ++ [row]) h (countRow_byDay rt st st2 p row hr hst)
      simpa using this

theorem dayFold_results (rt : Runtime) (l : List String) :
    (dayFold rt l).results = l.map resultOf := by
  induction l using List.reverseRecOn with
  | nil => rfl
  | append_singleton l row ih =>
    rw [dayFold_append_singleton, List.map_append]
    simp only [recordInDay, ih, List.map_cons, List.map_nil]
    rfl

theorem dayFold_times (rt : Runtime) (hne : ∀ t, rt.toLocaleTimeString t ≠ "")
    (l : List String) :
    (dayFold rt l).firstFailureTime =
        ((l.filter (fun row => !isSuccessRow row)).head?).map (timeOf rt) ∧
      (dayFold rt l).lastFailureTime =
        ((l.filter (fun row => !isSuccessRow row)).getLast?).map (timeOf rt) := by
  induction l using List.reverseRecOn with
  | nil => exact ⟨rfl, rfl⟩
  | append_singleton l row ih =>
    rw [dayFold_append_singleton, List.filter_append]
    by_cases hs : isSuccessRow row = true
    · simp [recordInDay, hs, List.filter_cons, ih.1, ih.2]
    · have hs2 : isSuccessRow row = false := by simpa using hs
      simp only [recordInDay, hs2, Bool.false_eq_true, if_false, List.filter_cons,
        Bool.not_false, if_true, List.filter_nil]
      constructor
      · rw [ih.1]
        cases hf : l.filter (fun row => !isSuccessRow row) with
        | nil => simp [isFalsy]
        | cons a rest =>
          have : isFalsy (some (timeOf rt a)) = false := by
            simp [isFalsy, timeOf, hne]
          simp [this]
      · simp

theorem splitRowsByDate_byDay (rt : Runtime) (rows : List String) (r : SplitResult)
    (h : splitRowsByDate rt rows = .ok r) :
    r.byDay = byDayOf rt (countedRows rt rows) ++ cutoffEntry rt rows := by
  obtain ⟨st, hst, rfl⟩ := splitRowsByDate_ok_counted rt rows r h
  have hb := countRows_byDay rt _ _ _ [] hst rfl
  simp only [List.nil_append] at hb
  unfold cutoffEntry
  cases hc : cutoffRow rt rows with
  | none => simp [finishSplit, addCutoffDay, hb]
  | some row => simp [finishSplit, addCutoffDay, hb]

theorem rowsOfDay_cutoff (rt : Runtime) (rows : List String) (row : String)
    (h : cutoffRow rt rows = some row) :
    rowsOfDay rt (countedRows rt rows) (dayKeyOf rt row) = [] := by
  have hnot : dayKeyOf rt row ∉ firstDays rt rows := by
    have := List.head?_dropWhile_not
      (fun row => decide (dayKeyOf rt row ∈ firstDays rt rows)) (nonBlank rows)
    unfold cutoffRow at h
    rw [h] at this
    simpa using this
  unfold rowsOfDay
  rw [List.filter_eq_nil_iff]
  intro r hr
  have hin : dayKeyOf rt r ∈ firstDays rt rows := by
    have := List.mem_takeWhile_imp hr
    simpa using this
  have : dayKeyOf rt r ≠ dayKeyOf rt row := fun e => hnot (e ▸ hin)
  simpa using this

theorem splitRowsByDate_container (rt : Runtime) (rows : List String) (r : SplitResult)
    (h : splitRowsByDate rt rows = .ok r) :
    ∀ kv ∈ r.byDay, kv.2 = dayFold rt (rowsOfDay rt (countedRows rt rows) kv.1) := by
  rw [splitRowsByDate_byDay rt rows r h]
  intro kv hkv
  rcases List.mem_append.1 hkv with hkv | hkv
  · unfold byDayOf at hkv
    obtain ⟨k, -, rfl⟩ := List.mem_map.1 hkv
    rfl
  · unfold cutoffEntry at hkv
    cases hc : cutoffRow rt rows with
    | none => rw [hc] at hkv; exact absurd hkv (List.not_mem_nil _)
    | some row =>
      rw [hc] at hkv
      simp only [List.mem_singleton] at hkv
      subst hkv
      simp only []
      rw [rowsOfDay_cutoff rt rows row hc]
      rfl

theorem countRows_ok (rt : Runtime) (l : List String) (st : LoopState)
    (h : ∀ row ∈ l, ',' ∈ row.data) : ∃ st1, countRows rt l st = .ok st1 := by
  induction l generalizing st with
  | nil => exact ⟨st, rfl⟩
  | cons row l ih =>
    have hd := destructure_of_comma row (h row (List.mem_cons_self _ _))
    have hr : ∃ st2, countRow rt st row = .ok st2 := by
      unfold countRow recordRow
      rw [hd]
      exact ⟨_, rfl⟩
    obtain ⟨st2, hst2⟩ := hr
    obtain ⟨st1, hst1⟩ := ih st2 (fun r hr => h r (List.mem_cons_of_mem _ hr))
    exact ⟨st1, by rw [countRows, hst2]; exact hst1⟩

theorem splitRowsByDate_congr_nonBlank (rt : Runtime) (rows rows1 : List String)
    (h : nonBlank rows = nonBlank rows1) :
    splitRowsByDate rt rows = splitRowsByDate rt rows1 := by
  rw [splitRowsByDate_eq, splitRowsByDate_eq]
  have hf : firstDays rt rows = firstDays rt rows1 := by
    unfold firstDays distinctDayKeys
    rw [h]
  have hc : countedRows rt rows = countedRows rt rows1 := by
    unfold countedRows
    rw [h, hf]
  have hcut : cutoffRow rt rows = cutoffRow rt rows1 := by
    unfold cutoffRow
    rw [h, hf]
  rw [hc, hcut]

theorem toLocaleTimeString_utcHost_ne (now : ℤ) (t : Option ℤ) :
    (utcHost now).toLocaleTimeString t ≠ "" := by
  intro h
  have hd := congrArg String.data h
  have hne : ((utcHost now).toLocaleTimeString t).data ≠ [] := by
    change (Host.toLocaleTimeString t).data ≠ []
    unfold Host.toLocaleTimeString
    cases t with
    | none => decide
    | some ms =>
      simp only []
      split_ifs
      · decide
      · simp [String.data_append]
  exact hne hd

/-- The call throws exactly when one of the counted rows has no comma. -/
theorem splitRowsByDate_throws_iff (rt : Runtime) (rows : List String) :
    splitRowsByDate rt rows = .error .typeError ↔
      ∃ row ∈ countedRows rt rows, ',' ∉ row.data := by
  constructor
  · intro h
    by_contra hno
    have hall : ∀ row ∈ countedRows rt rows, ',' ∈ row.data := by
      intro row hrow
      by_contra hc
      exact hno ⟨row, hrow, hc⟩
    obtain ⟨st1, hst1⟩ := countRows_ok rt (countedRows rt rows) ⟨[], 0, 0⟩ hall
    rw [splitRowsByDate_eq, hst1] at h
    exact absurd h (by simp [Except.map])
  · rintro ⟨row, hrow, hc⟩
    rw [splitRowsByDate_eq]
    cases hcr : countRows rt (countedRows rt rows) ⟨[], 0, 0⟩ with
    | error e => cases e; rfl
    | ok st =>
      obtain ⟨res, hres⟩ := countRows_wellFormed rt _ _ _ hcr row hrow
      rw [destructure_of_no_comma row hc] at hres
      exact absurd hres (by simp)

/-! ## Lemmas: counters and containers -/

theorem sum_indicator_of_nodup (ks : List String) (x : String) (hnd : ks.Nodup) (hx : x ∈ ks) :
    (ks.map (fun k => if x = k then 1 else 0)).sum = 1 := by
  induction ks with
  | nil => exact absurd hx (List.not_mem_nil _)
  | cons k ks ih =>
    rw [List.nodup_cons] at hnd
    rw [List.map_cons, List.sum_cons]
    by_cases hk : x = k
    · subst hk
      have hz : (ks.map (fun k => if x = k then 1 else 0)).sum = 0 := by
        rw [List.sum_eq_zero_iff]
        intro n hn
        obtain ⟨k2, hk2, rfl⟩ := List.mem_map.1 hn
        have : x ≠ k2 := fun e => hnd.1 (e ▸ hk2)
        simp [this]
      simp [hz]
    · have hx2 : x ∈ ks := by
        rcases List.mem_cons.1 hx with e | e
        · exact absurd e hk
        · exact e
      simp [hk, ih hnd.2 hx2]

/-- Rows sorted into days: when every row falls on one of the distinct days `ks`, the day
lists together hold as many rows as there are. -/
theorem sum_rowsOfDay_length (rt : Runtime) (ks : List String) (hnd : ks.Nodup)
    (l : List String) (hl : ∀ row ∈ l, dayKeyOf rt row ∈ ks) :
    (ks.map (fun k => (rowsOfDay rt l k).length)).sum = l.length := by
  induction l with
  | nil => simp [rowsOfDay]
  | cons row l ih =>
    have hrow := hl row (List.mem_cons_self _ _)
    have ht : ∀ r ∈ l, dayKeyOf rt r ∈ ks := fun r hr => hl r (List.mem_cons_of_mem _ hr)
    have e : ∀ k, (rowsOfDay rt (row :: l) k).length =
        (if dayKeyOf rt row = k then 1 else 0) + (rowsOfDay rt l k).length := by
      intro k
      unfold rowsOfDay
      by_cases hk : dayKeyOf rt row = k
      · simp [List.filter_cons, hk]; omega
      · simp [List.filter_cons, hk]
    simp only [e]
    rw [List.sum_map_add, ih ht, sum_indicator_of_nodup ks _ hnd hrow, List.length_cons]
    omega

theorem sum_byDayOf_lengths (rt : Runtime) (l : List String) :
    ((byDayOf rt l).map (fun kv => kv.2.results.length)).sum = l.length := by
  unfold byDayOf
  rw [List.map_map]
  have e : ((fun kv : String × DayContainer => kv.2.results.length) ∘
      fun k => (k, dayFold rt (rowsOfDay rt l k))) = fun k => (rowsOfDay rt l k).length := by
    funext k
    simp [dayFold_results]
  rw [e]
  exact sum_rowsOfDay_length rt _ (dkeys_nodup rt l) l
    (fun row hrow => (mem_dkeys rt l _).2 ⟨row, hrow, rfl⟩)

theorem count_one_map_resultOf (l : List String) :
    (l.map resultOf).count 1 = (l.filter isSuccessRow).length := by
  induction l with
  | nil => rfl
  | cons row l ih =>
    by_cases hs : isSuccessRow row = true
    · simp [List.filter_cons, hs, resultOf, List.count_cons, ih]
    · simp [List.filter_cons, hs, resultOf, List.count_cons, ih]

theorem sum_byDayOf_ones (rt : Runtime) (l : List String) :
    ((byDayOf rt l).map (fun kv => kv.2.results.count 1)).sum =
      (l.filter isSuccessRow).length := by
  unfold byDayOf
  rw [List.map_map]
  have e : ((fun kv : String × DayContainer => kv.2.results.count 1) ∘
      fun k => (k, dayFold rt (rowsOfDay rt l k))) =
      fun k => (rowsOfDay rt (l.filter isSuccessRow) k).length := by
    funext k
    simp only [Function.comp, dayFold_results, count_one_map_resultOf]
    unfold rowsOfDay
    rw [List.filter_filter, List.filter_filter]
    congr 1
    apply List.filter_congr
    intro x _
    exact Bool.and_comm _ _
  rw [e]
  exact sum_rowsOfDay_length rt _ (dkeys_nodup rt l) _
    (fun row hrow => (mem_dkeys rt l _).2 ⟨row, (List.mem_filter.1 hrow).1, rfl⟩)

theorem upTimeOf_eq_dashes_iff (s n : ℕ) : upTimeOf s n = "--%" ↔ n = 0 := by
  unfold upTimeOf
  split_ifs with h0
  · simp [h0]
  · simp only [h0, iff_false]
    exact toFixed2_percent_ne _

/-! ## Lemmas: the two maps of `normalizeData` -/

theorem keys_assign {α β : Type} [DecidableEq α] (obj : List (α × β)) (key : α) (value : β) :
    (assign obj key value).map Prod.fst =
      if key ∈ obj.map Prod.fst then obj.map Prod.fst else obj.map Prod.fst ++ [key] := by
  unfold assign
  have hany : (obj.any (fun kv => decide (kv.1 = key))) = true ↔ key ∈ obj.map Prod.fst := by
    constructor
    · intro h
      rw [List.any_eq_true] at h
      obtain ⟨kv, hkv, he⟩ := h
      exact List.mem_map.2 ⟨kv, hkv, by simpa using he⟩
    · intro h
      obtain ⟨kv, hkv, he⟩ := List.mem_map.1 h
      rw [List.any_eq_true]
      exact ⟨kv, hkv, by simpa using he⟩
  by_cases h : key ∈ obj.map Prod.fst
  · rw [if_pos (hany.2 h), if_pos h, List.map_map]
    apply List.map_congr_left
    intro kv _
    by_cases hk : kv.1 = key <;> simp [hk]
  · have hn : ¬ (obj.any (fun kv => decide (kv.1 = key))) = true := fun e => h (hany.1 e)
    rw [if_neg hn, if_neg h]
    simp

theorem fillMaps_keys (rt : Runtime) (byDay : ByDay)
    (maps : List (Offset × Option Double) × List (Offset × DayStats))
    (h : maps.1.map Prod.fst = maps.2.map Prod.fst) :
    (fillMaps rt byDay maps).1.map Prod.fst = (fillMaps rt byDay maps).2.map Prod.fst ∧
      ∀ o, o ∈ (fillMaps rt byDay maps).1.map Prod.fst ↔
        (o ∈ maps.1.map Prod.fst ∨ ∃ kv ∈ byDay, relDaysOf rt kv.1 = o) := by
  induction byDay generalizing maps with
  | nil =>
    obtain ⟨m1, m2⟩ := maps
    simp only [fillMaps]
    exact ⟨h, fun o => by simp⟩
  | cons kv rest ih =>
    obtain ⟨m1, m2⟩ := maps
    obtain ⟨key, val⟩ := kv
    simp only [fillMaps]
    simp only [] at h
    have hk : (assign m1 (relDaysOf rt key) (getDayAverage (some val.results))).map Prod.fst =
        (assign m2 (relDaysOf rt key) (summarizeDayStats val)).map Prod.fst := by
      rw [keys_assign, keys_assign, h]
    obtain ⟨ih1, ih2⟩ := ih (assign m1 (relDaysOf rt key) (getDayAverage (some val.results)),
      assign m2 (relDaysOf rt key) (summarizeDayStats val)) hk
    refine ⟨ih1, ?_⟩
    intro o
    rw [ih2 o]
    simp only [keys_assign]
    constructor
    · rintro (ho | ⟨kv, hkv, hrel⟩)
      · split_ifs at ho with hmem
        · exact Or.inl ho
        · rcases List.mem_append.1 ho with ho | ho
          · exact Or.inl ho
          · rw [List.mem_singleton] at ho
            exact Or.inr ⟨(key, val), List.mem_cons_self _ _, ho.symm⟩
      · exact Or.inr ⟨kv, List.mem_cons_of_mem _ hkv, hrel⟩
    · rintro (ho | ⟨kv, hkv, hrel⟩)
      · left
        split_ifs
        · exact ho
        · exact List.mem_append_left _ ho
      · rcases List.mem_cons.1 hkv with e | e
        · left
          subst e
          simp only [] at hrel
          split_ifs with hmem
          · rw [← hrel]; exact hmem
          · rw [← hrel]; simp
        · exact Or.inr ⟨kv, e, hrel⟩

/-! ## Lemmas: decimal numerals -/

theorem digitChar_spec : ∀ d < 10,
    isDigitChar (Nat.digitChar d) = true ∧ (Nat.digitChar d).toNat - 48 = d := by
  decide

theorem decimalValue_append_singleton (cs : List Char) (c : Char) :
    decimalValue (cs ++ [c]) = decimalValue cs * 10 + (c.toNat - 48) := by
  unfold decimalValue
  rw [List.foldl_append]
  rfl

theorem toDigitsCore_spec (fuel n : ℕ) (ds : List Char) (h : n < fuel) :
    ∃ pre, Nat.toDigitsCore 10 fuel n ds = pre ++ ds ∧
      (∀ c ∈ pre, isDigitChar c = true) ∧ decimalValue pre = n := by
  induction fuel generalizing n ds with
  | zero => exact absurd h (Nat.not_lt_zero _)
  | succ fuel ih =>
    have hd := digitChar_spec (n % 10) (Nat.mod_lt _ (by decide))
    rw [Nat.toDigitsCore]
    by_cases h0 : n / 10 = 0
    · simp only [h0, if_true]
      refine ⟨[Nat.digitChar (n % 10)], rfl, ?_, ?_⟩
      · intro c hc
        rw [List.mem_singleton] at hc
        rw [hc]
        exact hd.1
      · have hn : n % 10 = n := by omega
        have hv : decimalValue [Nat.digitChar (n % 10)] =
            0 * 10 + ((Nat.digitChar (n % 10)).toNat - 48) := rfl
        rw [hv, hd.2]
        omega
    · simp only [h0, if_false]
      have hlt : n / 10 < fuel := by omega
      obtain ⟨pre, hpre, hdig, hval⟩ := ih (n / 10) (Nat.digitChar (n % 10) :: ds) hlt
      refine ⟨pre ++ [Nat.digitChar (n % 10)], ?_, ?_, ?_⟩
      · rw [hpre]; simp
      · intro c hc
        rcases List.mem_append.1 hc with hc | hc
        · exact hdig c hc
        · rw [List.mem_singleton] at hc
          rw [hc]
          exact hd.1
      · rw [decimalValue_append_singleton, hval, hd.2]
        omega

theorem repr_spec (n : ℕ) :
    (∀ c ∈ (Nat.repr n).data, isDigitChar c = true) ∧ decimalValue (Nat.repr n).data = n := by
  obtain ⟨pre, hpre, hdig, hval⟩ := toDigitsCore_spec (n + 1) n [] (Nat.lt_succ_self n)
  have e : (Nat.repr n).data = pre := by
    unfold Nat.repr Nat.toDigits
    rw [hpre]
    simp [List.asString]
  rw [e]
  exact ⟨hdig, hval⟩

theorem takeWhile_digits_append (ds rest : List Char) (c : Char)
    (hds : ∀ d ∈ ds, isDigitChar d = true) (hc : isDigitChar c = false) :
    (ds ++ c :: rest).takeWhile isDigitChar = ds ∧
      (ds ++ c :: rest).dropWhile isDigitChar = c :: rest := by
  constructor
  · rw [List.takeWhile_append_of_pos hds, List.takeWhile_cons_of_neg (by simp [hc])]
    simp
  · rw [List.dropWhile_append_of_pos hds, List.dropWhile_cons_of_neg (by simp [hc])]

theorem minutesOfText_formatMinutes (m : ℕ) : minutesOfText (formatMinutes m) = m := by
  obtain ⟨hdh, hvh⟩ := repr_spec (m / 60)
  obtain ⟨hdm, hvm⟩ := repr_spec (m % 60)
  unfold formatMinutes
  simp only []
  split_ifs with h0 hr
  · obtain ⟨e1, e2⟩ := takeWhile_digits_append (Nat.repr (m % 60)).data [] 'm' hdm (by decide)
    have hdata : (Nat.repr (m % 60) ++ "m").data = (Nat.repr (m % 60)).data ++ 'm' :: [] :=
      (String.data_append _ _).trans rfl
    unfold minutesOfText
    simp only [hdata, e1, e2, hvm]
    omega
  · obtain ⟨e1, e2⟩ := takeWhile_digits_append (Nat.repr (m / 60)).data [] 'h' hdh (by decide)
    have hdata : (Nat.repr (m / 60) ++ "h").data = (Nat.repr (m / 60)).data ++ 'h' :: [] :=
      (String.data_append _ _).trans rfl
    unfold minutesOfText
    simp only [hdata, e1, e2, hvh, List.drop_nil, List.takeWhile_nil]
    simp only [decimalValue, List.foldl_nil]
    omega
  · obtain ⟨e1, e2⟩ := takeWhile_digits_append (Nat.repr (m / 60)).data
      (' ' :: ((Nat.repr (m % 60)).data ++ 'm' :: [])) 'h' hdh (by decide)
    obtain ⟨e3, -⟩ := takeWhile_digits_append (Nat.repr (m % 60)).data [] 'm' hdm (by decide)
    have hdata : (Nat.repr (m / 60) ++ "h " ++ Nat.repr (m % 60) ++ "m").data =
        (Nat.repr (m / 60)).data ++ 'h' :: ' ' :: ((Nat.repr (m % 60)).data ++ 'm' :: []) := by
      simp only [String.data_append, List.append_assoc]
      rfl
    unfold minutesOfText
    simp only [hdata, e1, e2, hvh, List.drop_succ_cons, List.drop_zero, e3, hvm]
    omega

/-! ## Lemmas: a quotient below one -/

theorem log2Fuel_eq_log (fuel n : ℕ) (h : n ≤ fuel) : Double.log2Fuel fuel n = Nat.log 2 n := by
  induction fuel generalizing n with
  | zero =>
    have : n = 0 := by omega
    subst this
    simp [Double.log2Fuel]
  | succ fuel ih =>
    rw [Double.log2Fuel]
    by_cases h2 : n < 2
    · rw [if_pos h2, Nat.log_of_lt h2]
    · rw [if_neg h2, ih (n / 2) (by omega)]
      exact (Nat.log_of_one_lt_of_le (by decide) (by omega)).symm

theorem ilog2_mono (s n : ℕ) (h : s ≤ n) : Double.ilog2 s ≤ Double.ilog2 n := by
  unfold Double.ilog2
  rw [log2Fuel_eq_log s s (le_refl _), log2Fuel_eq_log n n (le_refl _)]
  exact Nat.log_mono_right h

theorem binade_le_zero (s n : ℕ) (h : s ≤ n) : Double.binade s n ≤ 0 := by
  unfold Double.binade
  have hm := ilog2_mono s n h
  simp only []
  split_ifs <;> omega

theorem roundHalfEven_lt (n d c : ℕ) (hd : 0 < d) (h : 2 * n + d < 2 * (c * d)) :
    Double.roundHalfEven n d < c := by
  have hdm := Nat.div_add_mod n d
  have hcomm : d * (n / d) = n / d * d := Nat.mul_comm _ _
  have hf : n / d < c := by
    by_contra hc
    have hc2 : c ≤ n / d := by omega
    have h1 : c * d ≤ n / d * d := Nat.mul_le_mul_right d hc2
    omega
  have hsucc : d ≤ 2 * (n % d) → n / d + 1 < c := by
    intro hr
    by_contra hc
    have hc2 : c ≤ n / d + 1 := by omega
    have h1 : c * d ≤ (n / d + 1) * d := Nat.mul_le_mul_right d hc2
    have h2 : (n / d + 1) * d = n / d * d + d := by ring
    omega
  unfold Double.roundHalfEven
  simp only []
  split_ifs <;> first | exact hf | (apply hsucc; omega)

theorem fdiv_num_ne_den (s n : ℕ) (hs : s < n) (hn : n < 2 ^ 53) :
    (fdiv s n).num ≠ (fdiv s n).den := by
  unfold fdiv Double.ofQuot
  split_ifs with h0
  · simp [Double.num, Double.den]
  · simp only []
    have hb := binade_le_zero s n (le_of_lt hs)
    generalize Double.binade s n = e at hb
    have ht : max e (-1022) - 52 ≤ -52 := by omega
    generalize max e (-1022) - 52 = t at ht
    obtain ⟨k, rfl⟩ : ∃ k : ℕ, t = -(k : ℤ) := ⟨(-t).toNat, by omega⟩
    have hk : 52 ≤ k := by omega
    have h1 : (-(k : ℤ)).toNat = 0 := by omega
    have h2 : (- -(k : ℤ)).toNat = k := by omega
    simp only [Double.num, Double.den, h1, h2, pow_zero, Nat.mul_one]
    apply ne_of_lt
    apply roundHalfEven_lt _ _ _ (by omega)
    have hpow : 2 ^ 53 ≤ 2 * 2 ^ k := by
      have : 2 ^ 53 ≤ 2 ^ (k + 1) := Nat.pow_le_pow_right (by decide) (by omega)
      rw [pow_succ] at this
      omega
    have hs1 : s + 1 ≤ n := hs
    have h3 : (s + 1) * 2 ^ k ≤ n * 2 ^ k := Nat.mul_le_mul_right _ hs1
    have h4 : (s + 1) * 2 ^ k = s * 2 ^ k + 2 ^ k := by ring
    have h5 : 2 ^ k * n = n * 2 ^ k := Nat.mul_comm _ _
    omega

theorem getColor_fdiv_success_iff (s n : ℕ) (hs : s ≤ n) (h0 : 0 < n) (hn : n < 2 ^ 53) :
    getColor (some (fdiv s n)) = "success" ↔ s = n := by
  constructor
  · intro h
    by_contra hne
    have hlt : s < n := lt_of_le_of_ne hs hne
    have := fdiv_num_ne_den s n hlt hn
    unfold getColor at h
    simp only [this, if_false] at h
    split_ifs at h <;> exact absurd h (by decide)
  · intro h
    subst h
    rw [fdiv_self s h0]
    decide

theorem count_zero_add_count_one (l : List ℕ) (h : ∀ v ∈ l, v = 0 ∨ v = 1) :
    l.count 0 + l.count 1 = l.length := by
  induction l with
  | nil => rfl
  | cons v l ih =>
    have ht : ∀ w ∈ l, w = 0 ∨ w = 1 := fun w hw => h w (List.mem_cons_of_mem _ hw)
    have := ih ht
    rcases h v (List.mem_cons_self _ _) with rfl | rfl
    · simp [List.count_cons]; omega
    · simp [List.count_cons]; omega

theorem getDayAverage_eq_fdiv (l : List ℕ) (hne : l ≠ []) (h : ∀ v ∈ l, v = 0 ∨ v = 1) :
    getDayAverage (some l) = some (fdiv (l.count 1) l.length) := by
  cases l with
  | nil => exact absurd rfl hne
  | cons v vs =>
    have hv := h v (List.mem_cons_self _ _)
    have ht : ∀ w ∈ vs, w = 0 ∨ w = 1 := fun w hw => h w (List.mem_cons_of_mem _ hw)
    simp only [getDayAverage]
    rw [foldl_add_eq_count_one vs v ht]
    rcases hv with rfl | rfl <;> simp [List.count_cons, Nat.add_comm]

/-! ## The claims, continued -/

/-- C11 as stated fails. In the row `2024-01-01 10:00:00,success,x` the remainder after the
first comma is `success,x`, which is not `success`, so the claim has a failure recorded;
the code records a success (result 1), because `split(",", 2)` keeps the piece between
the first and the second comma only. -/
theorem second_comma_ignored :
    jsTrim (remainderAfterComma "2024-01-01 10:00:00,success,x") ≠ "success" ∧
      splitRowsByDate (utcHost 0) ["2024-01-01 10:00:00,success,x"] =
        .ok ⟨[("Mon Jan 01 2024", ⟨[1], none, none⟩)], "100.00%", 0, 0⟩ := by
  decide

/-- C11, amended. For every row with at least one comma the outcome field is the text
between the first comma and the next comma (the whole remainder when it holds no further
comma); the row is recorded as a success, result 1, exactly when that field, trimmed, is
`success`, and as a failure, result 0, otherwise; the text after a second comma is
ignored. -/
theorem outcome_is_second_field (row : String) (h : ',' ∈ row.data) :
    (destructure row).2 = some (outcomeField row) ∧
      (',' ∉ (remainderAfterComma row).data → outcomeField row = remainderAfterComma row) ∧
      (isSuccessRow row = true ↔ jsTrim (outcomeField row) = "success") ∧
      ∀ (rt : Runtime) (st : LoopState), recordRow rt st row =
        .ok { byDay := updateDay st.byDay (dayKeyOf rt row)
                (recordInDay (rt.toLocaleTimeString (dateTimeOf rt row))
                  (decide (jsTrim (outcomeField row) = "success")))
              sum := st.sum + (if jsTrim (outcomeField row) = "success" then 1 else 0)
              count := st.count + 1 } := by
  have hd := destructure_of_comma row h
  have h2 : (destructure row).2 = some (outcomeField row) := by rw [hd]
  refine ⟨h2, ?_, ?_, ?_⟩
  · intro hno
    unfold outcomeField remainderAfterComma at *
    congr 1
    apply List.takeWhile_eq_self_iff.2
    intro c hc
    have : c ≠ ',' := fun e => hno (e ▸ hc)
    simpa using this
  · unfold isSuccessRow
    rw [h2]
    simp
  · intro rt st
    unfold recordRow
    rw [h2]
    simp

/-- Witness for C11: the row `2024-01-01 10:00:00,success,x`. -/
theorem outcome_is_second_field_witness :
    (destructure "2024-01-01 10:00:00,success,x").2 = some "success" ∧
      isSuccessRow "2024-01-01 10:00:00,success,x" = true :=
  ⟨(outcome_is_second_field "2024-01-01 10:00:00,success,x" (by decide)).1.trans (by decide),
    (outcome_is_second_field "2024-01-01 10:00:00,success,x" (by decide)).2.2.1.2 (by decide)⟩

set_option maxRecDepth 100000 in
/-- C12 as stated fails. After thirty days of January the row `2024-02-01 09:00:00`, which
has no comma, is examined: it is split, its date is read and its day container is stored.
It triggers the cutoff, the loop breaks before the outcome is read, and the call returns
a summary in which the row is dropped without being counted. -/
theorem commaless_cutoff_row_returns :
    ',' ∉ ("2024-02-01 09:00:00" : String).data ∧
      ("2024-02-01 09:00:00" : String) ≠ "" ∧
      cutoffRow (utcHost 0) (januaryRows 30 ++ ["2024-02-01 09:00:00"]) =
        some "2024-02-01 09:00:00" ∧
      (splitRowsByDate (utcHost 0) (januaryRows 30 ++ ["2024-02-01 09:00:00"])).map
          (fun r => (r.byDay.length, r.byDay.getLast?, r.upTime, r.incidentCount,
            r.totalEstimatedDowntimeMinutes)) =
        .ok (31, some ("Thu Feb 01 2024", emptyDay), "100.00%", 0, 0) ∧
      (normalizeData (utcHost 0)
          (String.intercalate "\n" (januaryRows 30 ++ ["2024-02-01 09:00:00"]))).map
          (fun s => (s.upTime, s.incidentCount, s.totalEstimatedDowntime)) =
        .ok ("100.00%", 0, "0m") := by
  decide

/-- C12, amended. When a non-blank row without any comma is among the counted rows, that
is, comes before the row that triggers the cutoff, `splitRowsByDate` throws, and so does
`normalizeData`: no summary is returned. -/
theorem commaless_row_throws (rt : Runtime) (rows : List String) (row : String)
    (hrow : row ∈ countedRows rt rows) (hc : ',' ∉ row.data) :
    splitRowsByDate rt rows = .error .typeError ∧
      ∀ statusLines, jsSplit '\n' statusLines = rows →
        normalizeData rt statusLines = .error .typeError := by
  have hs : splitRowsByDate rt rows = .error .typeError :=
    (splitRowsByDate_throws_iff rt rows).2 ⟨row, hrow, hc⟩
  refine ⟨hs, ?_⟩
  intro statusLines hl
  unfold normalizeData
  simp only [hl, hs]

/-- Witness for C12: a success record followed by the row `oops`. -/
theorem commaless_row_throws_witness :
    splitRowsByDate (utcHost 0) ["2024-01-01 10:00:00,success", "oops"] = .error .typeError ∧
      normalizeData (utcHost 0) "2024-01-01 10:00:00,success\noops" = .error .typeError :=
  ⟨(commaless_row_throws (utcHost 0) ["2024-01-01 10:00:00,success", "oops"] "oops"
      (by decide) (by decide)).1,
    (commaless_row_throws (utcHost 0) ["2024-01-01 10:00:00,success", "oops"] "oops"
      (by decide) (by decide)).2 "2024-01-01 10:00:00,success\noops" (by decide)⟩

/-- C13 as stated fails. The row `not a date,success` has a date-time field that does
not parse, and the call returns: the record is counted in a container under the key
`Invalid Date`, and `normalizeData` files it under the offset `NaN`. -/
theorem invalid_date_not_thrown :
    dateTimeOf (utcHost 0) "not a date,success" = none ∧
      splitRowsByDate (utcHost 0) ["not a date,success"] =
        .ok ⟨[("Invalid Date", ⟨[1], none, none⟩)], "100.00%", 0, 0⟩ ∧
      normalizeData (utcHost 0) "not a date,success" =
        .ok ⟨[(none, some ⟨2 ^ 52, -52⟩)], [(none, ⟨1, 0, "0m", none, none⟩)],
          "100.00%", 0, "0m"⟩ := by
  decide

/-- C13, amended. When every non-blank row has a comma, `splitRowsByDate` and
`normalizeData` return, whatever the date-time fields are. An examined row whose
date-time field does not parse is filed under the day text of the invalid date: when it
is a counted row (it comes before the row that triggers the cutoff) its result is pushed
on the container of that key like any other record of that day; when it is the row that
triggers the cutoff it leaves the empty container under that key and is not counted. -/
theorem unparsable_timestamp_counted (rt : Runtime) (rows : List String)
    (hcomma : ∀ row ∈ rows, row ≠ "" → ',' ∈ row.data) :
    ∃ r, splitRowsByDate rt rows = .ok r ∧
      (∀ statusLines, jsSplit '\n' statusLines = rows →
        ∃ s, normalizeData rt statusLines = .ok s) ∧
      (∀ row ∈ countedRows rt rows, dateTimeOf rt row = none →
        ∃ c, (rt.toDateString none, c) ∈ r.byDay ∧
          row ∈ rowsOfDay rt (countedRows rt rows) (rt.toDateString none) ∧
          c.results = (rowsOfDay rt (countedRows rt rows) (rt.toDateString none)).map resultOf) ∧
      (∀ row, cutoffRow rt rows = some row → dateTimeOf rt row = none →
        (rt.toDateString none, emptyDay) ∈ r.byDay ∧
          rowsOfDay rt (countedRows rt rows) (rt.toDateString none) = []) := by
  have hsub : ∀ row ∈ countedRows rt rows, ',' ∈ row.data := by
    intro row hrow
    have := List.takeWhile_subset _ hrow
    unfold nonBlank at this
    rw [List.mem_filter] at this
    exact hcomma row this.1 (by simpa using this.2)
  obtain ⟨st1, hst1⟩ := countRows_ok rt (countedRows rt rows) ⟨[], 0, 0⟩ hsub
  have hs : splitRowsByDate rt rows =
      .ok (finishSplit (addCutoffDay rt (cutoffRow rt rows) st1)) := by
    rw [splitRowsByDate_eq, hst1]
    rfl
  have hbd := splitRowsByDate_byDay rt rows _ hs
  refine ⟨_, hs, ?_, ?_, ?_⟩
  · intro statusLines hl
    unfold normalizeData
    rw [hl, hs]
    exact ⟨_, rfl⟩
  · intro row hrow hnone
    have hkey : dayKeyOf rt row = rt.toDateString none := by
      unfold dayKeyOf
      rw [hnone]
    refine ⟨dayFold rt (rowsOfDay rt (countedRows rt rows) (rt.toDateString none)), ?_, ?_,
      dayFold_results rt _⟩
    · rw [hbd]
      apply List.mem_append_left
      unfold byDayOf
      apply List.mem_map.2
      exact ⟨rt.toDateString none, (mem_dkeys rt _ _).2 ⟨row, hrow, hkey⟩, rfl⟩
    · unfold rowsOfDay
      rw [List.mem_filter]
      exact ⟨hrow, by simpa using hkey⟩
  · intro row hcut hnone
    have hkey : dayKeyOf rt row = rt.toDateString none := by
      unfold dayKeyOf
      rw [hnone]
    constructor
    · rw [hbd]
      apply List.mem_append_right
      unfold cutoffEntry
      rw [hcut]
      simp only [hkey]
      exact List.mem_singleton.2 rfl
    · rw [← hkey]
      exact rowsOfDay_cutoff rt rows row hcut

/-- Witness for C13: an unparsable row followed by a well-formed one; the container
`Invalid Date` holds the result of the unparsable row. -/
theorem unparsable_timestamp_counted_witness :
    ∃ r, splitRowsByDate (utcHost 0) ["not a date,success", "2024-01-01 10:00:00,failure"] =
      .ok r ∧
      ∃ c, ("Invalid Date", c) ∈ r.byDay ∧ c.results = [1] :=
  (unparsable_timestamp_counted (utcHost 0)
    ["not a date,success", "2024-01-01 10:00:00,failure"] (by decide)).imp fun _ h =>
      ⟨h.1, (h.2.2.1 "not a date,success" (by decide) (by decide)).imp fun _ hc =>
        ⟨hc.1, hc.2.2.trans (by decide)⟩⟩

/-- C14. Blank rows are skipped: two lists of rows with the same non-blank rows in the
same order give the same result of `splitRowsByDate` (the same `byDay`, `upTime`,
`incidentCount` and `totalEstimatedDowntimeMinutes`, or both throw); in particular an
empty row inserted at any position changes nothing. -/
theorem blank_rows_skipped (rt : Runtime) (rows rows1 : List String)
    (h : nonBlank rows = nonBlank rows1) :
    splitRowsByDate rt rows = splitRowsByDate rt rows1 ∧
      ∀ pre suf : List String,
        splitRowsByDate rt (pre ++ "" :: suf) = splitRowsByDate rt (pre ++ suf) := by
  refine ⟨splitRowsByDate_congr_nonBlank rt rows rows1 h, ?_⟩
  intro pre suf
  apply splitRowsByDate_congr_nonBlank
  simp [nonBlank]

/-- Witness for C14: three empty rows around one record. -/
theorem blank_rows_skipped_witness :
    splitRowsByDate (utcHost 0) ["", "2024-01-01 10:00:00,failure", "", ""] =
      splitRowsByDate (utcHost 0) ["2024-01-01 10:00:00,failure"] :=
  (blank_rows_skipped (utcHost 0) ["", "2024-01-01 10:00:00,failure", "", ""]
    ["2024-01-01 10:00:00,failure"] (by decide)).1

/-- C15. On a host whose time-of-day text is never empty, for every container returned by
`splitRowsByDate`, `firstFailureTime` is the time of day of the first failure record of
that day in file order and `lastFailureTime` that of the last one; each is `null` exactly
when the results of the container hold no `0`; and recording a success changes neither
field. -/
theorem failure_times (rt : Runtime) (hne : ∀ t, rt.toLocaleTimeString t ≠ "")
    (rows : List String) (r : SplitResult) (h : splitRowsByDate rt rows = .ok r) :
    (∀ kv ∈ r.byDay,
        kv.2.firstFailureTime = ((failuresOfDay rt rows kv.1).head?).map (timeOf rt) ∧
        kv.2.lastFailureTime = ((failuresOfDay rt rows kv.1).getLast?).map (timeOf rt) ∧
        (kv.2.firstFailureTime = none ↔ 0 ∉ kv.2.results) ∧
        (kv.2.lastFailureTime = none ↔ 0 ∉ kv.2.results)) ∧
      ∀ (t : String) (c : DayContainer),
        (recordInDay t true c).firstFailureTime = c.firstFailureTime ∧
        (recordInDay t true c).lastFailureTime = c.lastFailureTime := by
  refine ⟨?_, fun t c => ⟨rfl, rfl⟩⟩
  intro kv hkv
  have hc := splitRowsByDate_container rt rows r h kv hkv
  obtain ⟨h1, h2⟩ := dayFold_times rt hne (rowsOfDay rt (countedRows rt rows) kv.1)
  have hres := dayFold_results rt (rowsOfDay rt (countedRows rt rows) kv.1)
  rw [← hc] at h1 h2 hres
  have hzero : 0 ∈ kv.2.results ↔ failuresOfDay rt rows kv.1 ≠ [] := by
    rw [hres]
    unfold failuresOfDay
    rw [Ne, List.filter_eq_nil_iff]
    simp only [List.mem_map, resultOf]
    constructor
    · rintro ⟨row, hrow, hz⟩ hall
      have := hall row hrow
      by_cases hs : isSuccessRow row = true
      · simp [hs] at hz
      · simp [hs] at this
    · intro hall
      by_contra hno
      apply hall
      intro row hrow
      by_cases hs : isSuccessRow row = true
      · simp [hs]
      · exact absurd ⟨row, hrow, by simp [hs]⟩ hno
  have h1f : kv.2.firstFailureTime =
      ((failuresOfDay rt rows kv.1).head?).map (timeOf rt) := h1
  have h2f : kv.2.lastFailureTime =
      ((failuresOfDay rt rows kv.1).getLast?).map (timeOf rt) := h2
  refine ⟨h1f, h2f, ?_, ?_⟩
  · rw [h1f, hzero]
    generalize failuresOfDay rt rows kv.1 = fs
    cases fs <;> simp
  · rw [h2f, hzero]
    generalize failuresOfDay rt rows kv.1 = fs
    simp

/-- Witness for C15: a failure at 10:00, a success at 11:00 and a failure at 12:30 on one
day. -/
theorem failure_times_witness :
    splitRowsByDate (utcHost 0)
        ["2024-01-01 10:00:00,failure", "2024-01-01 11:00:00,success",
          "2024-01-01 12:30:00,failure"] =
      .ok ⟨[("Mon Jan 01 2024", ⟨[0, 1, 0], some "10:00", some "12:30"⟩)], "33.33%", 1, 960⟩ ∧
    (some "10:00" : Option String) =
      ((failuresOfDay (utcHost 0)
        ["2024-01-01 10:00:00,failure", "2024-01-01 11:00:00,success",
          "2024-01-01 12:30:00,failure"] "Mon Jan 01 2024").head?).map (timeOf (utcHost 0)) ∧
    (some "12:30" : Option String) =
      ((failuresOfDay (utcHost 0)
        ["2024-01-01 10:00:00,failure", "2024-01-01 11:00:00,success",
          "2024-01-01 12:30:00,failure"] "Mon Jan 01 2024").getLast?).map
        (timeOf (utcHost 0)) :=
  ⟨by decide,
    ((failure_times (utcHost 0) (toLocaleTimeString_utcHost_ne 0)
      ["2024-01-01 10:00:00,failure", "2024-01-01 11:00:00,success",
        "2024-01-01 12:30:00,failure"]
      ⟨[("Mon Jan 01 2024", ⟨[0, 1, 0], some "10:00", some "12:30"⟩)], "33.33%", 1, 960⟩
      (by decide)).1
      ("Mon Jan 01 2024", ⟨[0, 1, 0], some "10:00", some "12:30"⟩) (by decide)).1,
    ((failure_times (utcHost 0) (toLocaleTimeString_utcHost_ne 0)
      ["2024-01-01 10:00:00,failure", "2024-01-01 11:00:00,success",
        "2024-01-01 12:30:00,failure"]
      ⟨[("Mon Jan 01 2024", ⟨[0, 1, 0], some "10:00", some "12:30"⟩)], "33.33%", 1, 960⟩
      (by decide)).1
      ("Mon Jan 01 2024", ⟨[0, 1, 0], some "10:00", some "12:30"⟩) (by decide)).2.1⟩

/-- C16 as stated fails. With `now = 0`, the day `a = 86400000` is later than the day
`b = 0`, and yet its offset 1 is larger than the offset 0 of `b`: the absolute value makes
a day after `now` count upwards again. -/
theorem getRelativeDays_future_day :
    (0 : ℤ) < 86400000 ∧ getRelativeDays 0 86400000 = 1 ∧ getRelativeDays 0 0 = 0 ∧
      ¬ getRelativeDays 0 86400000 ≤ getRelativeDays 0 0 := by
  decide

/-- C16, amended. For every instant `now` and every two day instants `a` and `b` not
after `now`, with `a` later than `b`, `getRelativeDays now a ≤ getRelativeDays now b`, where
`getRelativeDays now d` is the floor of `|now - d| / 86400000`. -/
theorem getRelativeDays_antitone (now a b : ℤ) (hab : b ≤ a) (han : a ≤ now) :
    getRelativeDays now a ≤ getRelativeDays now b ∧
      ((getRelativeDays now a : ℕ) : ℤ) = ⌊((|now - a| : ℤ) : ℚ) / 86400000⌋ ∧
      ((getRelativeDays now b : ℕ) : ℤ) = ⌊((|now - b| : ℤ) : ℚ) / 86400000⌋ := by
  have hfloor : ∀ d : ℤ,
      ((getRelativeDays now d : ℕ) : ℤ) = ⌊((|now - d| : ℤ) : ℚ) / 86400000⌋ := by
    intro d
    have h := Rat.floor_intCast_div_natCast (|now - d|) 86400000
    have hc : ((86400000 : ℕ) : ℚ) = 86400000 := by norm_num
    rw [hc] at h
    rw [h]
    unfold getRelativeDays
    rw [Int.abs_eq_natAbs]
    norm_num
  refine ⟨?_, hfloor a, hfloor b⟩
  unfold getRelativeDays
  apply Nat.div_le_div_right
  omega

/-- Witness for C16: noon of 1 January 2024, that day and the day before. -/
theorem getRelativeDays_antitone_witness :
    getRelativeDays 1704110400000 1704067200000 ≤ getRelativeDays 1704110400000 1703980800000 :=
  (getRelativeDays_antitone 1704110400000 1704067200000 1703980800000
    (by decide) (by decide)).1

/-- C17. In every summary `normalizeData` returns, `dailyAverages` and `dailyStats` have
the same offsets, and an offset is present exactly when it is the relative day
`getRelativeDays (now, day)` of some container of `byDay`. -/
theorem same_offsets (rt : Runtime) (statusLines : String) (s : Summary)
    (h : normalizeData rt statusLines = .ok s) :
    ∃ r, splitRowsByDate rt (jsSplit '\n' statusLines) = .ok r ∧
      s.dailyAverages.map Prod.fst = s.dailyStats.map Prod.fst ∧
      ∀ o : Offset,
        (o ∈ s.dailyAverages.map Prod.fst ↔ ∃ kv ∈ r.byDay, relDaysOf rt kv.1 = o) ∧
        (o ∈ s.dailyStats.map Prod.fst ↔ ∃ kv ∈ r.byDay, relDaysOf rt kv.1 = o) := by
  unfold normalizeData at h
  cases hs : splitRowsByDate rt (jsSplit '\n' statusLines) with
  | error e => rw [hs] at h; exact absurd h (by simp)
  | ok r =>
    rw [hs] at h
    simp only [Except.ok.injEq] at h
    obtain ⟨h1, h2⟩ := fillMaps_keys rt r.byDay ([], []) rfl
    refine ⟨r, rfl, ?_, ?_⟩
    · rw [← h]; exact h1
    · intro o
      have ha : o ∈ s.dailyAverages.map Prod.fst ↔ ∃ kv ∈ r.byDay, relDaysOf rt kv.1 = o := by
        rw [← h]
        simp only []
        rw [h2 o]
        simp
      refine ⟨ha, ?_⟩
      rw [← ha, ← h]
      simp only []
      rw [h1]

/-- Witness for C17: a log with a record today and one yesterday. -/
theorem same_offsets_witness :
    normalizeData (utcHost 1704110400000)
        "2024-01-01 10:00:00,success\n2023-12-31 11:00:00,failure" =
      .ok ⟨[(some 0, some ⟨4503599627370496, -52⟩), (some 1, some ⟨0, 0⟩)],
        [(some 0, ⟨1, 0, "0m", none, none⟩), (some 1, ⟨1, 1, "24h", some "11:00", some "11:00"⟩)],
        "50.00%", 1, "24h"⟩ ∧
    ∃ r, splitRowsByDate (utcHost 1704110400000)
        (jsSplit '\n' "2024-01-01 10:00:00,success\n2023-12-31 11:00:00,failure") = .ok r ∧
      ∀ o : Offset, (o ∈ [some 0, some 1] ↔
        ∃ kv ∈ r.byDay, relDaysOf (utcHost 1704110400000) kv.1 = o) :=
  ⟨by decide,
    (same_offsets (utcHost 1704110400000)
      "2024-01-01 10:00:00,success\n2023-12-31 11:00:00,failure"
      ⟨[(some 0, some ⟨4503599627370496, -52⟩), (some 1, some ⟨0, 0⟩)],
        [(some 0, ⟨1, 0, "0m", none, none⟩), (some 1, ⟨1, 1, "24h", some "11:00", some "11:00"⟩)],
        "50.00%", 1, "24h"⟩ (by decide)).imp fun _ h => ⟨h.1, fun o => (h.2.2 o).1⟩⟩

/-- C18. The function `formatMinutes` is injective: two minute counts with the same
duration text are equal. -/
theorem formatMinutes_injective (m1 m2 : ℕ) (h : formatMinutes m1 = formatMinutes m2) :
    m1 = m2 := by
  have h1 := minutesOfText_formatMinutes m1
  rw [h, minutesOfText_formatMinutes m2] at h1
  exact h1.symm

/-- Witness for C18: 90 and 60 + 30. -/
theorem formatMinutes_injective_witness : (90 : ℕ) = 60 + 30 :=
  formatMinutes_injective 90 (60 + 30) (by decide)

/-- C19. For every container whose results are a non-empty sequence over `{0, 1}` (an
array, so shorter than `2 ^ 32`), `getDayAverage` of the results is the quotient
`(totalChecks - failedChecks) / totalChecks` of the counts `summarizeDayStats` returns;
`getColor` of the average is `success` exactly when `failedChecks = 0`; it is never
`nodata`, which is the colour of the empty sequence. -/
theorem average_agrees_with_stats (d : DayContainer) (hne : d.results ≠ [])
    (h01 : ∀ v ∈ d.results, v = 0 ∨ v = 1) (hlen : d.results.length < 2 ^ 32) :
    getDayAverage (some d.results) =
        some (fdiv ((summarizeDayStats d).totalChecks - (summarizeDayStats d).failedChecks)
          (summarizeDayStats d).totalChecks) ∧
      (getColor (getDayAverage (some d.results)) = "success" ↔
        (summarizeDayStats d).failedChecks = 0) ∧
      getColor (getDayAverage (some d.results)) ≠ "nodata" ∧
      getColor (getDayAverage (some [])) = "nodata" := by
  have hsum := count_zero_add_count_one d.results h01
  have havg := getDayAverage_eq_fdiv d.results hne h01
  have hpos : 0 < d.results.length := List.length_pos.mpr hne
  have hT : (summarizeDayStats d).totalChecks = d.results.length := rfl
  have hF : (summarizeDayStats d).failedChecks = d.results.count 0 :=
    failedChecksOf_eq_count _
  have hone : d.results.count 1 = d.results.length - d.results.count 0 := by omega
  refine ⟨?_, ?_, ?_, rfl⟩
  · rw [havg, hT, hF, hone]
  · rw [havg, hF,
      getColor_fdiv_success_iff _ _ (List.count_le_length 1 d.results) hpos
        (lt_trans hlen (by norm_num))]
    omega
  · rw [havg]
    unfold getColor
    simp only []
    split_ifs <;> decide

/-- Witness for C19: the results `[1, 1, 0, 1]`. -/
theorem average_agrees_with_stats_witness :
    getDayAverage (some [1, 1, 0, 1]) = some (fdiv (4 - 1) 4) ∧
      getColor (getDayAverage (some [1, 1, 0, 1])) ≠ "nodata" :=
  ⟨(average_agrees_with_stats ⟨[1, 1, 0, 1], some "11:00", some "11:00"⟩
      (by decide) (by decide) (by decide)).1,
    (average_agrees_with_stats ⟨[1, 1, 0, 1], some "11:00", some "11:00"⟩
      (by decide) (by decide) (by decide)).2.2.1⟩

/-- C20. When `splitRowsByDate` returns, the counter `count` the first loop ends with is
the sum of the lengths of the results of all returned containers, and the counter `sum` is
the number of `1` entries in them; both are the counts of the counted records; so `upTime`
is the percentage computed from the returned `byDay` alone, and it is `--%` exactly when
every returned container is empty. -/
theorem counters_agree (rt : Runtime) (rows : List String) (r : SplitResult)
    (h : splitRowsByDate rt rows = .ok r) :
    ∃ st, splitLoop rt rows ⟨[], 0, 0⟩ = .ok st ∧
      st.count = (r.byDay.map (fun kv => kv.2.results.length)).sum ∧
      st.sum = (r.byDay.map (fun kv => kv.2.results.count 1)).sum ∧
      (countedRows rt rows).length = st.count ∧
      ((countedRows rt rows).filter isSuccessRow).length = st.sum ∧
      r.upTime = upTimeOf (r.byDay.map (fun kv => kv.2.results.count 1)).sum
        (r.byDay.map (fun kv => kv.2.results.length)).sum ∧
      (r.upTime = "--%" ↔ ∀ kv ∈ r.byDay, kv.2.results = []) := by
  have hbd := splitRowsByDate_byDay rt rows r h
  obtain ⟨st1, hst1, hr⟩ := splitRowsByDate_ok_counted rt rows r h
  obtain ⟨hc, hs⟩ := countRows_counts rt _ _ _ hst1
  simp only [Nat.zero_add] at hc hs
  have hloop : splitLoop rt rows ⟨[], 0, 0⟩ = .ok (addCutoffDay rt (cutoffRow rt rows) st1) := by
    rw [splitLoop_eq rt rows ⟨[], 0, 0⟩ (by simp [keysOf])]
    have e : allowedKeys rt (keysOf ([] : ByDay)) rows = firstDays rt rows := rfl
    simp only [e]
    have hst2 : countRows rt ((nonBlank rows).takeWhile
        (fun row => decide (dayKeyOf rt row ∈ firstDays rt rows))) ⟨[], 0, 0⟩ = .ok st1 := hst1
    rw [hst2]
    rfl
  have hcut0 : ∀ kv ∈ cutoffEntry rt rows, kv.2 = emptyDay := by
    intro kv hkv
    unfold cutoffEntry at hkv
    split at hkv
    · exact absurd hkv (List.not_mem_nil _)
    · rw [List.mem_singleton] at hkv
      rw [hkv]
  have hcutlen : ((cutoffEntry rt rows).map (fun kv => kv.2.results.length)).sum = 0 := by
    rw [List.sum_eq_zero_iff]
    intro n hn
    obtain ⟨kv, hkv, rfl⟩ := List.mem_map.1 hn
    rw [hcut0 kv hkv]
    rfl
  have hcutone : ((cutoffEntry rt rows).map (fun kv => kv.2.results.count 1)).sum = 0 := by
    rw [List.sum_eq_zero_iff]
    intro n hn
    obtain ⟨kv, hkv, rfl⟩ := List.mem_map.1 hn
    rw [hcut0 kv hkv]
    rfl
  have hlen : (r.byDay.map (fun kv => kv.2.results.length)).sum =
      (countedRows rt rows).length := by
    rw [hbd, List.map_append, List.sum_append, hcutlen, sum_byDayOf_lengths]
    rfl
  have hone : (r.byDay.map (fun kv => kv.2.results.count 1)).sum =
      ((countedRows rt rows).filter isSuccessRow).length := by
    rw [hbd, List.map_append, List.sum_append, hcutone, sum_byDayOf_ones]
    rfl
  have hcount : (addCutoffDay rt (cutoffRow rt rows) st1).count = (countedRows rt rows).length := by
    rw [(addCutoffDay_counts rt _ st1).2, hc]
  have hsum : (addCutoffDay rt (cutoffRow rt rows) st1).sum =
      ((countedRows rt rows).filter isSuccessRow).length := by
    rw [(addCutoffDay_counts rt _ st1).1, hs]
  have hup : r.upTime = upTimeOf (r.byDay.map (fun kv => kv.2.results.count 1)).sum
      (r.byDay.map (fun kv => kv.2.results.length)).sum := by
    rw [hone, hlen, hr]
    simp only [finishSplit, hcount, hsum]
  refine ⟨_, hloop, ?_, ?_, ?_, ?_, hup, ?_⟩
  · rw [hcount, hlen]
  · rw [hsum, hone]
  · rw [hcount]
  · rw [hsum]
  · rw [hup, upTimeOf_eq_dashes_iff, List.sum_eq_zero_iff]
    constructor
    · intro hall kv hkv
      exact List.length_eq_zero.1 (hall _ (List.mem_map.2 ⟨kv, hkv, rfl⟩))
    · intro hall n hn
      obtain ⟨kv, hkv, rfl⟩ := List.mem_map.1 hn
      rw [hall kv hkv]
      rfl

/-- Witness for C20: three records on two days. -/
theorem counters_agree_witness :
    splitRowsByDate (utcHost 0)
        ["2024-01-01 10:00:00,failure", "2024-01-02 11:00:00,success",
          "2024-01-01 12:30:00,success"] =
      .ok ⟨[("Mon Jan 01 2024", ⟨[0, 1], some "10:00", some "10:00"⟩),
          ("Tue Jan 02 2024", ⟨[1], none, none⟩)], "66.67%", 1, 720⟩ ∧
    ∃ st, splitLoop (utcHost 0)
        ["2024-01-01 10:00:00,failure", "2024-01-02 11:00:00,success",
          "2024-01-01 12:30:00,success"] ⟨[], 0, 0⟩ = .ok st ∧ st.count = 3 ∧ st.sum = 2 :=
  ⟨by decide,
    (counters_agree (utcHost 0)
      ["2024-01-01 10:00:00,failure", "2024-01-02 11:00:00,success",
        "2024-01-01 12:30:00,success"]
      ⟨[("Mon Jan 01 2024", ⟨[0, 1], some "10:00", some "10:00"⟩),
        ("Tue Jan 02 2024", ⟨[1], none, none⟩)], "66.67%", 1, 720⟩
      (by decide)).imp fun _ hst => ⟨hst.1, hst.2.1, hst.2.2.1⟩⟩

end StatusPage
